import Mathlib

/-!
# Colm runtime strings (`src/colm/string.cpp`)

A shallow embedding of the string module of the Colm runtime, followed by the
properties of its natural-language specification.

Platform conventions of the embedding (LP64, two's complement, glibc, "C" locale):

* `char` is a signed 8-bit type, `int` is 32 bits wide, `long`, `size_t`, `Word`
  and pointers are 64 bits wide; arithmetic that leaves a type's range wraps.
* a pointer is an address, a natural number; `0` is the null pointer.
* memory is a map from addresses to bytes; addresses at or above `memTop` are not
  mapped and every access to them faults.
* `Head` records are kept in a typed view of memory, `heads`, keyed by the
  address of the record; the payload of an owned string starts `sizeofHead`
  bytes after the address of its record.
-/

namespace Colm

/-! ## Machine words -/

/-- One byte of memory, read as an `unsigned char`. -/
abbrev Byte := Fin 256

/-- Two's complement reading of the low 32 bits: the conversion to `int`. -/
def wrapInt (x : Int) : Int := (x + 2147483648) % 4294967296 - 2147483648

/-- Two's complement reading of the low 64 bits: the conversion to `long`, and the
signed reading under which a `Word` is carried throughout. -/
def wrapLong (x : Int) : Int :=
  (x + 9223372036854775808) % 18446744073709551616 - 9223372036854775808

/-- Conversion of a `long` to `size_t`: the value modulo `2^64`. -/
def toSizeT (x : Int) : Nat := (x % 18446744073709551616).toNat

/-- Largest `int`. -/
def INT_MAX : Int := 2147483647

/-- Smallest `int`. -/
def INT_MIN : Int := -2147483648

/-- Largest `long`. -/
def LONG_MAX : Int := 9223372036854775807

/-- Smallest `long`. -/
def LONG_MIN : Int := -9223372036854775808

/-- Value of a byte read through a `char*`: `char` is signed. -/
def charOfByte (b : Byte) : Int := if b.val < 128 then (b.val : Int) else (b.val : Int) - 256

/-- Byte stored when an `int` is assigned to a `char`: the low eight bits. -/
def byteOfInt (i : Int) : Byte := ⟨(i % 256).toNat, by omega⟩

/-! ## Data model -/

/-- The ways an operation can stop without returning. -/
inductive Fault where
  | badAlloc
  | segv
  | assertFail
  | stackSmash
  deriving DecidableEq, Repr

/-- Modelled from the spec: the `Head` record, declared in a header that is not part
of the sources at hand. It has the three fields the module uses: `data` (pointer to
the payload), `length` (a `long`) and `location` (pointer to the location
descriptor, `0` when there is none). -/
structure Head where
  data : Nat
  length : Int
  location : Nat
  deriving DecidableEq, Repr

/-- Modelled from the spec: `sizeof(Head)`, three 8-byte fields. -/
def sizeofHead : Nat := 24

/-- The general heap behind `malloc` and `free`: memory from `next` up to `limit`
has never been handed out; `live` lists the blocks handed out and not yet freed,
as pairs of address and size. -/
structure Heap where
  next : Nat
  limit : Nat
  live : List (Nat × Nat)

/-- `malloc`: hands out the lowest never-used block, or the null pointer when
the request does not fit. -/
def malloc (h : Heap) (n : Nat) : Nat × Heap :=
  if 0 < h.next ∧ h.next + n ≤ h.limit then
    (h.next, { h with next := h.next + n, live := (h.next, n) :: h.live })
  else (0, h)

/-- `free`: the block starting at `p` is no longer live. -/
def free (h : Heap) (p : Nat) : Heap :=
  { h with live := h.live.filter (fun b => b.1 ≠ p) }

/-- Modelled from the spec: a fixed-shape object pool (`headPool`, `locationPool`),
whose class is not part of the sources at hand. Released slots are kept on the
list `avail` and reused first; otherwise the next never-used slot is handed out.
The pool's storage is `[base, stop)`, of which `[next, stop)` has never been used. -/
structure Pool where
  avail : List Nat
  base : Nat
  next : Nat
  stop : Nat
  slot : Nat

/-- Modelled from the spec: `allocate()` of a pool; `none` when the pool cannot
supply a slot (the allocation failure of the spec). -/
def Pool.allocate (p : Pool) : Option (Nat × Pool) :=
  match p.avail with
  | a :: rest => some (a, { p with avail := rest })
  | [] =>
    if 0 < p.next ∧ p.next + p.slot ≤ p.stop then
      some (p.next, { p with next := p.next + p.slot })
    else none

/-- Modelled from the spec: `free(x)` of a pool returns the slot for reuse. -/
def Pool.release (p : Pool) (a : Nat) : Pool := { p with avail := a :: p.avail }

/-- The state the module works on: the byte memory, the `Head` records, the
general heap, the two pools of the `Program`, the literal table of its runtime
data, and the frame slot that holds the local buffer of `int_to_str`. -/
structure Machine where
  bytes : Nat → Byte
  memTop : Nat
  heads : Nat → Head
  heap : Heap
  headPool : Pool
  locationPool : Pool
  litdata : Nat → Nat
  litlen : Nat → Int
  frame : Nat

/-- The mode test of the source, `(char*)(head+1) == head->data`. -/
def isOwned (m : Machine) (head : Nat) : Bool :=
  decide (head + sizeofHead = (m.heads head).data)

/-! ## The C library, as far as the module calls it -/

/-- `memcpy(dst, src, n)` on non-overlapping ranges; touching unmapped memory faults. -/
def memcpy (m : Machine) (dst src n : Nat) : Except Fault Machine :=
  if dst + n ≤ m.memTop ∧ src + n ≤ m.memTop then
    .ok { m with bytes := fun a =>
            if dst ≤ a ∧ a < dst + n then m.bytes (src + (a - dst)) else m.bytes a }
  else .error .segv

/-- The scan of `memcmp`: the difference of the first pair of differing bytes, read
as `unsigned char` (only its sign is specified by the C standard). -/
def memcmpScan (m : Machine) : Nat → Nat → Nat → Except Fault Int
  | 0, _, _ => .ok 0
  | n + 1, p, q =>
    if m.memTop ≤ p ∨ m.memTop ≤ q then .error .segv
    else if m.bytes p = m.bytes q then memcmpScan m n (p + 1) (q + 1)
    else .ok (((m.bytes p).val : Int) - ((m.bytes q).val : Int))

/-- `memcmp(p, q, n)`. -/
def memcmp (m : Machine) (p q n : Nat) : Except Fault Int := memcmpScan m n p q

/-- `toupper` in the "C" locale; glibc's table covers `-128 .. 255` and maps every
value that is not a lower-case letter to itself. -/
def toupper (c : Int) : Int := if 97 ≤ c ∧ c ≤ 122 then c - 32 else c

/-- `tolower` in the "C" locale, on the same domain. -/
def tolower (c : Int) : Int := if 65 ≤ c ∧ c ≤ 90 then c + 32 else c

/-- `isspace` in the "C" locale: space, and `\t \n \v \f \r`. -/
def isspace (b : Byte) : Bool := decide (b.val = 32 ∨ (9 ≤ b.val ∧ b.val ≤ 13))

/-- `isdigit`. -/
def isdigit (b : Byte) : Bool := decide (48 ≤ b.val ∧ b.val ≤ 57)

/-- Leading white space of `strtol`: the address of the first byte at or after `a`
that is not white space. -/
def skipSpace (m : Machine) : Nat → Nat → Except Fault Nat
  | 0, _ => .error .segv
  | fuel + 1, a =>
    if m.memTop ≤ a then .error .segv
    else if isspace (m.bytes a) then skipSpace m fuel (a + 1)
    else .ok a

/-- The digit run of `strtol`: accumulates decimal digits from address `a` on, up to
the first byte that is not a digit. -/
def scanDigits (m : Machine) : Nat → Nat → Nat → Except Fault Nat
  | 0, _, _ => .error .segv
  | fuel + 1, a, acc =>
    if m.memTop ≤ a then .error .segv
    else if isdigit (m.bytes a) then
      scanDigits m fuel (a + 1) (acc * 10 + ((m.bytes a).val - 48))
    else .ok acc

/-- Saturation of `strtol`: a value outside the range of `long` is replaced by the
nearest bound. -/
def clampLong (x : Int) : Int :=
  if x < LONG_MIN then LONG_MIN else if LONG_MAX < x then LONG_MAX else x

/-- `strtol(p, NULL, 10)`: white space, an optional sign, a run of digits. The scan
is bounded by the end of mapped memory, which it cannot pass without faulting. -/
def strtol (m : Machine) (p : Nat) : Except Fault Int :=
  match skipSpace m (m.memTop + 1 - p) p with
  | .error e => .error e
  | .ok a =>
    let neg := decide ((m.bytes a).val = 45)
    let a1 := if (m.bytes a).val = 45 ∨ (m.bytes a).val = 43 then a + 1 else a
    match scanDigits m (m.memTop + 1 - a1) a1 0 with
    | .error e => .error e
    | .ok n => .ok (clampLong (if neg then -(n : Int) else (n : Int)))

/-- `atoi(p)`, which glibc defines as `(int) strtol(p, NULL, 10)`. -/
def atoi (m : Machine) (p : Nat) : Except Fault Int :=
  match strtol m p with
  | .error e => .error e
  | .ok v => .ok (wrapInt v)

/-- Decimal digits of a natural number as ASCII bytes, most significant first,
prepended to `acc`; `fuel` bounds the number of digits. -/
def digitsAux : Nat → Nat → List Byte → List Byte
  | 0, _, acc => acc
  | fuel + 1, n, acc =>
    if n < 10 then byteOfInt (48 + n) :: acc
    else digitsAux fuel (n / 10) (byteOfInt (48 + n % 10) :: acc)

/-- Text that `sprintf` produces for `"%ld"`: a minus sign for a negative value,
then the decimal digits of the magnitude, without leading zeros. A `long` has at
most 19 digits. -/
def formatLong (v : Int) : List Byte :=
  if v < 0 then (45 : Byte) :: digitsAux 20 v.natAbs [] else digitsAux 20 v.natAbs []

/-- Writes the bytes of `text` to consecutive addresses from `a` on. -/
def writeBytes (bytes : Nat → Byte) (a : Nat) (text : List Byte) : Nat → Byte :=
  fun x => if a ≤ x ∧ x < a + text.length then text.getD (x - a) 0 else bytes x

/-- `sprintf(buf, "%ld", v)` into a buffer of `cap` bytes at address `buf`: the text
and a terminating zero byte. Writing past the end of the buffer is a fault. -/
def sprintf_ld (m : Machine) (buf cap : Nat) (v : Int) : Except Fault Machine :=
  if m.memTop < buf + cap then .error .segv
  else if (formatLong v).length + 1 ≤ cap then
    .ok { m with bytes := writeBytes m.bytes buf (formatLong v ++ [0]) }
  else .error .stackSmash

/-- The scan of `strlen`: counts bytes from `a` on up to the first zero byte. -/
def strlenScan (m : Machine) : Nat → Nat → Nat → Except Fault Nat
  | 0, _, _ => .error .segv
  | fuel + 1, a, n =>
    if m.memTop ≤ a then .error .segv
    else if (m.bytes a).val = 0 then .ok n
    else strlenScan m fuel (a + 1) (n + 1)

/-- `strlen(p)`. -/
def strlen (m : Machine) (p : Nat) : Except Fault Nat := strlenScan m (m.memTop + 1 - p) p 0

/-! ## The module -/

/-- `string_length`. -/
def string_length (m : Machine) (head : Nat) : Int :=
  if head = 0 then 0 else (m.heads head).length

/-- `string_data`. -/
def string_data (m : Machine) (head : Nat) : Nat :=
  if head = 0 then 0 else (m.heads head).data

/-- `string_shorten`: the assertion, then the store to `length`. -/
def string_shorten (m : Machine) (head : Nat) (newlen : Int) : Except Fault Machine :=
  if newlen ≤ (m.heads head).length then
    .ok { m with heads := Function.update m.heads head { m.heads head with length := newlen } }
  else .error .assertFail

/-- `init_str_space`: one block of `sizeof(Head) + length` bytes, the header set up
so that the payload is the rest of the block. -/
def init_str_space (m : Machine) (length : Int) : Except Fault (Nat × Machine) :=
  let r := malloc m.heap (toSizeT ((sizeofHead : Int) + length))
  if r.1 = 0 then .error .badAlloc
  else
    .ok (r.1, { m with
      heap := r.2
      heads := Function.update m.heads r.1
        { data := r.1 + sizeofHead, length := length, location := 0 } })

/-- `string_alloc_full`. -/
def string_alloc_full (m : Machine) (data : Nat) (length : Int) : Except Fault (Nat × Machine) :=
  match init_str_space m length with
  | .error e => .error e
  | .ok (head, m1) =>
    match memcpy m1 (head + sizeofHead) data (toSizeT length) with
    | .error e => .error e
    | .ok m2 => .ok (head, m2)

/-- `string_alloc_pointer`: a record from the head pool; only `data` and `length`
are stored, `location` keeps what the slot held. -/
def string_alloc_pointer (m : Machine) (data : Nat) (length : Int) :
    Except Fault (Nat × Machine) :=
  match m.headPool.allocate with
  | none => .error .badAlloc
  | some (head, pool) =>
    .ok (head, { m with
      headPool := pool
      heads := Function.update m.heads head
        { m.heads head with data := data, length := length } })

/-- `string_copy`. -/
def string_copy (m : Machine) (head : Nat) : Except Fault (Nat × Machine) :=
  if head ≠ 0 then
    if head + sizeofHead = (m.heads head).data then
      string_alloc_full m (m.heads head).data (m.heads head).length
    else
      string_alloc_pointer m (m.heads head).data (m.heads head).length
  else .ok (0, m)

/-- `string_free`. -/
def string_free (m : Machine) (head : Nat) : Machine :=
  if head ≠ 0 then
    let m1 :=
      if (m.heads head).location ≠ 0 then
        { m with locationPool := m.locationPool.release (m.heads head).location }
      else m
    if head + sizeofHead = (m1.heads head).data then
      { m1 with heap := free m1.heap head }
    else
      { m1 with headPool := m1.headPool.release head }
  else m

/-- `concat_str`. -/
def concat_str (m : Machine) (s1 s2 : Nat) : Except Fault (Nat × Machine) :=
  let s1Len := (m.heads s1).length
  let s2Len := (m.heads s2).length
  match init_str_space m (wrapLong (s1Len + s2Len)) with
  | .error e => .error e
  | .ok (head, m1) =>
    match memcpy m1 (head + sizeofHead) (m1.heads s1).data (toSizeT s1Len) with
    | .error e => .error e
    | .ok m2 =>
      match memcpy m2 (head + sizeofHead + toSizeT s1Len) (m2.heads s2).data (toSizeT s2Len) with
      | .error e => .error e
      | .ok m3 => .ok (head, m3)

/-- The loop of `string_toupper` and `string_tolower`,
`for ( int i = 0; i < len; i++ ) *dst++ = f( *src++ );`, with the `int` counter `i`.
Every round moves `dst` one byte up, so `memTop + 1` rounds of fuel are never used up. -/
def caseLoop (f : Int → Int) (len : Int) : Nat → Int → Nat → Nat → Machine → Except Fault Machine
  | 0, _, _, _, _ => .error .segv
  | fuel + 1, i, src, dst, m =>
    if i < len then
      if m.memTop ≤ src ∨ m.memTop ≤ dst then .error .segv
      else
        caseLoop f len fuel (wrapInt (i + 1)) (src + 1) (dst + 1)
          { m with bytes := Function.update m.bytes dst (byteOfInt (f (charOfByte (m.bytes src)))) }
    else .ok m

/-- `string_toupper`. -/
def string_toupper (m : Machine) (s : Nat) : Except Fault (Nat × Machine) :=
  let len := (m.heads s).length
  match init_str_space m len with
  | .error e => .error e
  | .ok (head, m1) =>
    match caseLoop toupper len (m1.memTop + 1) 0 (m1.heads s).data (head + sizeofHead) m1 with
    | .error e => .error e
    | .ok m2 => .ok (head, m2)

/-- `string_tolower`. -/
def string_tolower (m : Machine) (s : Nat) : Except Fault (Nat × Machine) :=
  let len := (m.heads s).length
  match init_str_space m len with
  | .error e => .error e
  | .ok (head, m1) =>
    match caseLoop tolower len (m1.memTop + 1) 0 (m1.heads s).data (head + sizeofHead) m1 with
    | .error e => .error e
    | .ok m2 => .ok (head, m2)

/-- `cmp_string`; the `int` of `memcmp` is widened to a `Word`, which keeps its
signed reading. -/
def cmp_string (m : Machine) (s1 s2 : Nat) : Except Fault Int :=
  if (m.heads s1).length < (m.heads s2).length then .ok (-1)
  else if (m.heads s1).length > (m.heads s2).length then .ok 1
  else memcmp m (m.heads s1).data (m.heads s2).data (toSizeT (m.heads s1).length)

/-- `str_atoi`: `atoi` on the start of the payload; `length` is not consulted. -/
def str_atoi (m : Machine) (str : Nat) : Except Fault Int :=
  atoi m (m.heads str).data

/-- `int_to_str`, with the 20-byte local buffer `data` at address `m.frame`. -/
def int_to_str (m : Machine) (i : Int) : Except Fault (Nat × Machine) :=
  match sprintf_ld m m.frame 20 i with
  | .error e => .error e
  | .ok m1 =>
    match strlen m1 m1.frame with
    | .error e => .error e
    | .ok n => string_alloc_full m1 m1.frame (n : Int)

/-- `str_uord16`. -/
def str_uord16 (m : Machine) (head : Nat) : Except Fault Int :=
  let data := (m.heads head).data
  if data + 2 ≤ m.memTop then
    let res := (m.bytes (data + 1)).val
    let res := res ||| ((m.bytes data).val <<< 8)
    .ok (wrapLong res)
  else .error .segv

/-- `str_uord8`. -/
def str_uord8 (m : Machine) (head : Nat) : Except Fault Int :=
  let data := (m.heads head).data
  if data + 1 ≤ m.memTop then .ok (wrapLong (m.bytes data).val)
  else .error .segv

/-- `make_literal`. -/
def make_literal (m : Machine) (offset : Nat) : Except Fault (Nat × Machine) :=
  string_alloc_pointer m (m.litdata offset) (m.litlen offset)

/-- The composition `str_atoi( int_to_str( v ) )`. -/
def roundTrip (m : Machine) (v : Int) : Except Fault Int :=
  match int_to_str m v with
  | .error e => .error e
  | .ok (p, m1) => str_atoi m1 p

/-! ## Well-formed states -/

/-- Whether a pool slot is unused: released, or never handed out. -/
def Pool.unused (p : Pool) (a : Nat) : Prop := a ∈ p.avail ∨ (p.next ≤ a ∧ a < p.stop)

/-- Whether the pool can supply a slot. -/
def Pool.ready (p : Pool) : Prop := p.avail ≠ [] ∨ (0 < p.next ∧ p.next + p.slot ≤ p.stop)

/-- Whether the heap can supply a block for a string of `n` bytes. -/
def Heap.room (h : Heap) (n : Nat) : Prop := h.next + sizeofHead + n ≤ h.limit

instance (p : Pool) (a : Nat) : Decidable (p.unused a) := by
  unfold Pool.unused
  infer_instance

instance (p : Pool) : Decidable p.ready := by
  unfold Pool.ready
  infer_instance

instance (h : Heap) (n : Nat) : Decidable (h.room n) := by
  unfold Heap.room
  infer_instance

/-- The layout a machine keeps: the heap is mapped memory inside the lower half of
the address space and does not start at the null address; the head pool has
slots of the size of a `Head`, and its released slots lie in the used part of
its storage. -/
structure Machine.WF (m : Machine) : Prop where
  heap_pos : 0 < m.heap.next
  heap_mapped : m.heap.limit ≤ m.memTop
  addr_space : m.memTop ≤ 9223372036854775808
  pool_slot : m.headPool.slot = sizeofHead
  pool_used : m.headPool.base ≤ m.headPool.next
  pool_fits : m.headPool.next ≤ m.headPool.stop
  pool_avail : ∀ a ∈ m.headPool.avail, m.headPool.base ≤ a ∧ a + sizeofHead ≤ m.headPool.next

/-- A validly constructed handle: a record that is in use (neither in the part of
the heap that `malloc` can still hand out nor an unused slot of the head pool),
with a non-negative length and a payload that is mapped memory in use, outside
the storage of the head pool. -/
structure ValidHandle (m : Machine) (h : Nat) : Prop where
  nonnull : h ≠ 0
  len_nonneg : 0 ≤ (m.heads h).length
  record_heap : h + sizeofHead ≤ m.heap.next ∨ m.heap.limit ≤ h
  record_pool : ¬ m.headPool.unused h
  payload_mapped : (m.heads h).data + (m.heads h).length.toNat ≤ m.memTop
  payload_heap : (m.heads h).data + (m.heads h).length.toNat ≤ m.heap.next
    ∨ m.heap.limit ≤ (m.heads h).data
  payload_pool : (m.heads h).data ≤ m.headPool.base ∨ m.headPool.stop < (m.heads h).data

/-- Byte `i` of the payload of the handle `h`. -/
def payloadByte (m : Machine) (h : Nat) (i : Nat) : Byte := m.bytes ((m.heads h).data + i)

/-- Value of a run of decimal digits, continuing from `acc`. -/
def decValue (ds : List Byte) (acc : Nat) : Nat :=
  ds.foldl (fun x d => x * 10 + (d.val - 48)) acc

/-- The ASCII upper-case image of a byte, in the words of the specification: a
lower-case letter becomes the corresponding capital, every other byte is unchanged. -/
def asciiUpper (b : Byte) : Byte :=
  if h : 97 ≤ b.val ∧ b.val ≤ 122 then ⟨b.val - 32, by omega⟩ else b

/-- The ASCII lower-case image of a byte, in the words of the specification: a capital
letter becomes the corresponding lower-case letter, every other byte is unchanged. -/
def asciiLower (b : Byte) : Byte :=
  if h : 65 ≤ b.val ∧ b.val ≤ 90 then ⟨b.val + 32, by omega⟩ else b

/-- The canonical decimal text of an integer, in the words of the specification: a
minus sign exactly when the value is negative, then the decimal digits of the
magnitude, at least one, without leading zeros. -/
def IsCanonicalDecimal (v : Int) (text : List Byte) : Prop :=
  ∃ ds : List Byte,
    text = (if v < 0 then [(45 : Byte)] else []) ++ ds ∧ ds ≠ [] ∧
    (∀ d, d ∈ ds → isdigit d = true) ∧ decValue ds 0 = v.natAbs ∧
    (ds.head? = some 48 → ds = [48])

/-! ## Concrete machines for the examples -/

/-- A small machine: 4096 bytes of memory, zero except for the given `texts` (pairs
of address and bytes); the `Head` records `hs` (pairs of address and record); the
unused heap is `[2048, 4096)` and the owned records among `hs` are its live
blocks; the head pool is `[512, 1024)` with its first two slots (512 and 536)
handed out, the location pool is `[128, 256)`, the local buffer of `int_to_str` is
at address 64. -/
def exMachine (texts : List (Nat × List Byte)) (hs : List (Nat × Head)) : Machine where
  bytes := texts.foldl (fun b t => writeBytes b t.1 t.2) (fun _ => 0)
  memTop := 4096
  heads := fun a => (hs.lookup a).getD { data := 0, length := 0, location := 0 }
  heap :=
    { next := 2048
      limit := 4096
      live := (hs.filter (fun e => e.1 + sizeofHead = e.2.data)).map
        (fun e => (e.1, sizeofHead + e.2.length.toNat)) }
  headPool := { avail := [], base := 512, next := 560, stop := 1024, slot := sizeofHead }
  locationPool := { avail := [], base := 128, next := 128, stop := 256, slot := 16 }
  litdata := fun _ => 256
  litlen := fun _ => 0
  frame := 64

/-- The strings "Z" (borrowed, record at 512) and "aa" (borrowed, record at 536),
both slices of the buffer "Zaa" at address 256. -/
def exZaa : Machine :=
  exMachine [(256, [90, 97, 97])]
    [(512, { data := 256, length := 1, location := 0 }),
     (536, { data := 257, length := 2, location := 0 })]

/-- The strings "abc" (borrowed, record at 512, payload at 256) and "abd" (owned,
record at 1024, payload at 1048). -/
def exAbc : Machine :=
  exMachine [(256, [97, 98, 99]), (1048, [97, 98, 100])]
    [(512, { data := 256, length := 3, location := 0 }),
     (1024, { data := 1048, length := 3, location := 7 })]

/-- A handle of length 2 (record at 512) that is a slice of the buffer "1234". -/
def ex1234 : Machine :=
  exMachine [(256, [49, 50, 51, 52])] [(512, { data := 256, length := 2, location := 0 })]

/-- A handle of length 2 (record at 512) on the buffer "12", which a zero byte follows. -/
def ex12 : Machine :=
  exMachine [(256, [49, 50])] [(512, { data := 256, length := 2, location := 0 })]

/-- A machine with 8 GiB of memory, the unused heap in its upper half, and a borrowed
handle (record at 512) on the 2 GiB of zero bytes from address 4096 on: its
length is `2^31`, one more than the largest `int`. -/
def exHuge : Machine where
  bytes := fun _ => 0
  memTop := 8589934592
  heads := fun a =>
    if a = 512 then { data := 4096, length := 2147483648, location := 0 }
    else { data := 0, length := 0, location := 0 }
  heap := { next := 4294967296, limit := 8589934592, live := [] }
  headPool := { avail := [], base := 512, next := 560, stop := 1024, slot := sizeofHead }
  locationPool := { avail := [], base := 128, next := 128, stop := 256, slot := 16 }
  litdata := fun _ => 0
  litlen := fun _ => 0
  frame := 64

/-- The invariant on lengths: every `Head` record holds a non-negative length. -/
def LengthsOk (m : Machine) : Prop := ∀ h, 0 ≤ (m.heads h).length

/-- A machine without handles that holds the text "hello" at address 256 (the entry of
the literal table) and the text "HELLO" at address 300. -/
def exHello : Machine :=
  exMachine [(256, [104, 101, 108, 108, 111]), (300, [72, 69, 76, 76, 79])] []

/-- The strings "abc" (borrowed, record at 512), "abd" (borrowed, record at 536) and
"abe" (owned, record at 1024). -/
def exOrder : Machine :=
  exMachine [(256, [97, 98, 99, 97, 98, 100]), (1048, [97, 98, 101])]
    [(512, { data := 256, length := 3, location := 0 }),
     (536, { data := 259, length := 3, location := 0 }),
     (1024, { data := 1048, length := 3, location := 0 })]

/-- The owned string "abd" (record at 1024) with a location descriptor at 128, its
block live in the heap, and the borrowed string "abc" (record at 512) without one. -/
def exFree : Machine :=
  exMachine [(256, [97, 98, 99]), (1048, [97, 98, 100])]
    [(512, { data := 256, length := 3, location := 0 }),
     (1024, { data := 1048, length := 3, location := 128 })]

/-- What the end-to-end example observes. -/
structure HelloResult where
  borrowedIn : Bool
  ownedOut : Bool
  lengthOut : Int
  bytesOut : List Nat
  compared : Int
  deriving DecidableEq

instance decEqExcept {ε α : Type} [DecidableEq ε] [DecidableEq α] : DecidableEq (Except ε α)
  | .ok a, .ok b =>
    if h : a = b then isTrue (by rw [h]) else isFalse (fun e => h (Except.ok.inj e))
  | .error a, .error b =>
    if h : a = b then isTrue (by rw [h]) else isFalse (fun e => h (Except.error.inj e))
  | .ok _, .error _ => isFalse (fun e => by cases e)
  | .error _, .ok _ => isFalse (fun e => by cases e)

/-- The end-to-end example: a borrowed handle on the `n` bytes at `src`, its
upper-case conversion, an owned handle on the `n` bytes at `ref`, and the comparison
of the last two. Observed are: whether the first handle is borrowed, whether the
converted one is owned, its length, its first `n` payload bytes, and the result of
`cmp_string`. -/
def helloRun (m : Machine) (src ref : Nat) (n : Nat) : Except Fault HelloResult :=
  match string_alloc_pointer m src n with
  | .error e => .error e
  | .ok (h, m1) =>
    match string_toupper m1 h with
    | .error e => .error e
    | .ok (u, m2) =>
      match string_alloc_full m2 ref n with
      | .error e => .error e
      | .ok (g, m3) =>
        match cmp_string m3 u g with
        | .error e => .error e
        | .ok r =>
          .ok { borrowedIn := !(isOwned m1 h), ownedOut := isOwned m2 u,
                lengthOut := (m2.heads u).length,
                bytesOut := (List.range n).map (fun i => (payloadByte m2 u i).val),
                compared := r }

end Colm

namespace Colm

/-! ## Comparison -/

/-- C3. When the lengths of two handles differ, `cmp_string` returns without looking
at the payloads: a negative result when the first is shorter, a positive result
when the first is longer. -/
theorem cmp_string_length_first (m : Machine) (a b : Nat) :
    ((m.heads a).length < (m.heads b).length →
        ∃ r, cmp_string m a b = .ok r ∧ r < 0) ∧
    ((m.heads a).length > (m.heads b).length →
        ∃ r, cmp_string m a b = .ok r ∧ 0 < r) := by
  constructor
  · intro h
    exact ⟨-1, by simp [cmp_string, h], by decide⟩
  · intro h
    have h2 : ¬ (m.heads a).length < (m.heads b).length := by omega
    exact ⟨1, by simp [cmp_string, h, h2], by decide⟩

/-- C3, on the strings "Z" and "aa": the shorter "Z" is reported as less. -/
theorem cmp_string_length_first_witness :
    (exZaa.heads 512).length < (exZaa.heads 536).length ∧
      ∃ r, cmp_string exZaa 512 536 = .ok r ∧ r < 0 :=
  ⟨by decide, (cmp_string_length_first exZaa 512 536).1 (by decide)⟩

/-- `toSizeT` is the identity on the values a length takes in mapped memory. -/
theorem toSizeT_of_nonneg (x : Int) (h0 : 0 ≤ x) (h1 : x < 18446744073709551616) :
    toSizeT x = x.toNat := by
  unfold toSizeT
  rw [Int.emod_eq_of_lt h0 h1]

/-- `wrapLong` is the identity on the range of `long`. -/
theorem wrapLong_of_range (x : Int) (h0 : LONG_MIN ≤ x) (h1 : x ≤ LONG_MAX) :
    wrapLong x = x := by
  unfold wrapLong
  unfold LONG_MIN at h0
  unfold LONG_MAX at h1
  omega

/-- `wrapInt` is the identity on the range of `int`. -/
theorem wrapInt_of_range (x : Int) (h0 : INT_MIN ≤ x) (h1 : x ≤ INT_MAX) :
    wrapInt x = x := by
  unfold wrapInt
  unfold INT_MIN at h0
  unfold INT_MAX at h1
  omega

/-- What the scan of `memcmp` returns on two mapped ranges of `n` bytes. -/
theorem memcmpScan_spec (m : Machine) :
    ∀ (n p q : Nat), p + n ≤ m.memTop → q + n ≤ m.memTop →
      ∃ r, memcmpScan m n p q = .ok r ∧
        (r = 0 ↔ ∀ i, i < n → m.bytes (p + i) = m.bytes (q + i)) ∧
        (∀ i, i < n → (∀ j, j < i → m.bytes (p + j) = m.bytes (q + j)) →
          m.bytes (p + i) ≠ m.bytes (q + i) →
          r = ((m.bytes (p + i)).val : Int) - ((m.bytes (q + i)).val : Int)) := by
  intro n
  induction n with
  | zero =>
    intro p q _ _
    refine ⟨0, rfl, ?_, ?_⟩
    · simp
    · intro i hi
      omega
  | succ n ih =>
    intro p q hp hq
    have hp1 : ¬ m.memTop ≤ p := by omega
    have hq1 : ¬ m.memTop ≤ q := by omega
    by_cases hb : m.bytes p = m.bytes q
    · obtain ⟨r, hr, hz, hd⟩ := ih (p + 1) (q + 1) (by omega) (by omega)
      refine ⟨r, ?_, ?_, ?_⟩
      · simp [memcmpScan, hp1, hq1, hb, hr]
      · rw [hz]
        constructor
        · intro h i hi
          cases i with
          | zero => simpa using hb
          | succ k =>
            have := h k (by omega)
            rw [show p + (k + 1) = p + 1 + k by omega, show q + (k + 1) = q + 1 + k by omega]
            exact this
        · intro h i hi
          have := h (i + 1) (by omega)
          rw [show p + 1 + i = p + (i + 1) by omega, show q + 1 + i = q + (i + 1) by omega]
          exact this
      · intro i hi hpre hne
        cases i with
        | zero => exact absurd hb (by simpa using hne)
        | succ k =>
          have hk := hd k (by omega)
            (by
              intro j hj
              have := hpre (j + 1) (by omega)
              rw [show p + 1 + j = p + (j + 1) by omega, show q + 1 + j = q + (j + 1) by omega]
              exact this)
            (by
              rw [show p + 1 + k = p + (k + 1) by omega, show q + 1 + k = q + (k + 1) by omega]
              exact hne)
          rw [hk, show p + 1 + k = p + (k + 1) by omega, show q + 1 + k = q + (k + 1) by omega]
    · have hv : (m.bytes p).val ≠ (m.bytes q).val := fun h => hb (Fin.ext h)
      refine ⟨((m.bytes p).val : Int) - ((m.bytes q).val : Int), ?_, ?_, ?_⟩
      · simp [memcmpScan, hp1, hq1, hb]
      · constructor
        · intro h
          omega
        · intro h
          exact absurd (by simpa using h 0 (by omega)) hb
      · intro i hi hpre hne
        cases i with
        | zero => simp
        | succ k => exact absurd (by simpa using hpre 0 (by omega)) hb

/-- C4. On two handles of equal, non-negative length whose payloads are mapped,
`cmp_string` returns a result that is zero exactly when the payloads agree byte for
byte, and that otherwise has the sign of the difference of the bytes, read as
unsigned values, at the first index where the payloads differ. -/
theorem cmp_string_equal_length (m : Machine) (a b : Nat)
    (hlen : (m.heads a).length = (m.heads b).length)
    (hnn : 0 ≤ (m.heads a).length)
    (hsp : m.memTop ≤ 9223372036854775808)
    (ha : (m.heads a).data + (m.heads a).length.toNat ≤ m.memTop)
    (hb : (m.heads b).data + (m.heads b).length.toNat ≤ m.memTop) :
    ∃ r, cmp_string m a b = .ok r ∧
      (r = 0 ↔ ∀ i, i < (m.heads a).length.toNat → payloadByte m a i = payloadByte m b i) ∧
      (∀ i, i < (m.heads a).length.toNat →
        (∀ j, j < i → payloadByte m a j = payloadByte m b j) →
        payloadByte m a i ≠ payloadByte m b i →
        Int.sign r = Int.sign (((payloadByte m a i).val : Int) - ((payloadByte m b i).val : Int))) := by
  have hsz : toSizeT (m.heads a).length = (m.heads a).length.toNat :=
    toSizeT_of_nonneg _ hnn (by omega)
  obtain ⟨r, hr, hz, hd⟩ := memcmpScan_spec m (m.heads a).length.toNat
    (m.heads a).data (m.heads b).data ha (by rw [hlen]; exact hb)
  refine ⟨r, ?_, hz, ?_⟩
  · have h1 : ¬ (m.heads a).length < (m.heads b).length := by omega
    have h2 : ¬ (m.heads a).length > (m.heads b).length := by omega
    simp only [cmp_string, h1, h2, if_false, memcmp, hsz]
    exact hr
  · intro i hi hpre hne
    rw [hd i hi hpre hne]
    rfl

/-- C4, on "abc" and "abd": the result is negative, as `c` is less than `d`. -/
theorem cmp_string_equal_length_witness :
    ∃ r, cmp_string exAbc 512 1024 = .ok r ∧
      (r = 0 ↔ ∀ i, i < (exAbc.heads 512).length.toNat →
        payloadByte exAbc 512 i = payloadByte exAbc 1024 i) ∧
      (∀ i, i < (exAbc.heads 512).length.toNat →
        (∀ j, j < i → payloadByte exAbc 512 j = payloadByte exAbc 1024 j) →
        payloadByte exAbc 512 i ≠ payloadByte exAbc 1024 i →
        Int.sign r = Int.sign (((payloadByte exAbc 512 i).val : Int)
          - ((payloadByte exAbc 1024 i).val : Int))) :=
  cmp_string_equal_length exAbc 512 1024 (by decide) (by decide) (by decide) (by decide)
    (by decide)

/-! ## Truncation -/

/-- C10. For `n` at most the length of the handle, `string_shorten` returns, and
afterwards the length is `n`, while the payload address, the mode, the location,
every byte of memory, every other record, the heap and the pools are what they
were; and, for any `k`, the assertion fails exactly when `k` exceeds the length. -/
theorem string_shorten_frame (m : Machine) (h : Nat) (n : Int)
    (hn : n ≤ (m.heads h).length) :
    (∃ m1, string_shorten m h n = .ok m1 ∧
      (m1.heads h).length = n ∧
      (m1.heads h).data = (m.heads h).data ∧
      isOwned m1 h = isOwned m h ∧
      (m1.heads h).location = (m.heads h).location ∧
      (∀ i, payloadByte m1 h i = payloadByte m h i) ∧
      m1.bytes = m.bytes ∧
      (∀ g, g ≠ h → m1.heads g = m.heads g) ∧
      m1.heap = m.heap ∧ m1.headPool = m.headPool ∧ m1.locationPool = m.locationPool) ∧
    (∀ k : Int, string_shorten m h k = .error .assertFail ↔ (m.heads h).length < k) := by
  constructor
  · refine ⟨_, by rw [string_shorten, if_pos hn], ?_⟩
    simp [isOwned, payloadByte]
    intro g hg
    exact Function.update_noteq hg _ _
  · intro k
    by_cases hk : k ≤ (m.heads h).length
    · simp [string_shorten, hk]
    · simp [string_shorten, hk]
      omega

/-- C10, shortening the owned string "abd" to "ab". -/
theorem string_shorten_frame_witness :
    (2 : Int) ≤ (exAbc.heads 1024).length ∧
    ∃ m1, string_shorten exAbc 1024 2 = .ok m1 ∧
      (m1.heads 1024).length = 2 ∧ isOwned m1 1024 = true ∧
      (m1.heads 1024).location = 7 :=
  ⟨by decide, by
    obtain ⟨m1, h1, h2, _, h4, h5, _⟩ := (string_shorten_frame exAbc 1024 2 (by decide)).1
    exact ⟨m1, h1, h2, by rw [h4]; decide, by rw [h5]; decide⟩⟩

/-! ## Allocation -/

/-- State after a successful `init_str_space`. -/
theorem init_str_space_ok (m : Machine) (len : Int) (hwf : m.WF) (h0 : 0 ≤ len)
    (hroom : m.heap.room len.toNat) :
    init_str_space m len = .ok (m.heap.next,
      { m with
        heap := { m.heap with
          next := m.heap.next + (sizeofHead + len.toNat)
          live := (m.heap.next, sizeofHead + len.toNat) :: m.heap.live }
        heads := Function.update m.heads m.heap.next
          { data := m.heap.next + sizeofHead, length := len, location := 0 } }) := by
  have h1 := hwf.heap_pos
  have h2 := hwf.heap_mapped
  have h3 := hwf.addr_space
  unfold Heap.room at hroom
  have hsz : toSizeT ((sizeofHead : Int) + len) = sizeofHead + len.toNat := by
    rw [toSizeT_of_nonneg _ (by unfold sizeofHead; omega) (by unfold sizeofHead at *; omega)]
    unfold sizeofHead
    omega
  have hfit : 0 < m.heap.next ∧ m.heap.next + (sizeofHead + len.toNat) ≤ m.heap.limit :=
    ⟨h1, by omega⟩
  have hne : m.heap.next ≠ 0 := by omega
  simp [init_str_space, hsz, malloc, hfit, hne]

/-- State after a successful `string_alloc_full`. -/
theorem string_alloc_full_eq (m : Machine) (data : Nat) (len : Int) (hwf : m.WF)
    (h0 : 0 ≤ len) (hroom : m.heap.room len.toNat) (hsrc : data + len.toNat ≤ m.memTop) :
    string_alloc_full m data len = .ok (m.heap.next,
      { m with
        bytes := fun a =>
          if m.heap.next + sizeofHead ≤ a ∧ a < m.heap.next + sizeofHead + len.toNat then
            m.bytes (data + (a - (m.heap.next + sizeofHead)))
          else m.bytes a
        heap := { m.heap with
          next := m.heap.next + (sizeofHead + len.toNat)
          live := (m.heap.next, sizeofHead + len.toNat) :: m.heap.live }
        heads := Function.update m.heads m.heap.next
          { data := m.heap.next + sizeofHead, length := len, location := 0 } }) := by
  have h2 := hwf.heap_mapped
  have h3 := hwf.addr_space
  have hroom2 := hroom
  unfold Heap.room at hroom2
  have hsz : toSizeT len = len.toNat := toSizeT_of_nonneg _ h0 (by omega)
  have hfit : m.heap.next + sizeofHead + len.toNat ≤ m.memTop ∧ data + len.toNat ≤ m.memTop :=
    ⟨by omega, hsrc⟩
  unfold string_alloc_full
  rw [init_str_space_ok m len hwf h0 hroom]
  simp only [memcpy, hsz]
  rw [if_pos hfit]

/-- What a successful `string_alloc_full` returns: the block at the lowest unused heap
address, set up as an owned string with a copy of the `len` bytes at `data`. -/
theorem string_alloc_full_ok (m : Machine) (data : Nat) (len : Int) (hwf : m.WF)
    (h0 : 0 ≤ len) (hroom : m.heap.room len.toNat) (hsrc : data + len.toNat ≤ m.memTop) :
    ∃ m2, string_alloc_full m data len = .ok (m.heap.next, m2) ∧
      m2.heads = Function.update m.heads m.heap.next
        { data := m.heap.next + sizeofHead, length := len, location := 0 } ∧
      (∀ i, i < len.toNat → m2.bytes (m.heap.next + sizeofHead + i) = m.bytes (data + i)) ∧
      (∀ a, a < m.heap.next + sizeofHead ∨ m.heap.next + sizeofHead + len.toNat ≤ a →
        m2.bytes a = m.bytes a) ∧
      m2.memTop = m.memTop ∧ m2.headPool = m.headPool ∧ m2.locationPool = m.locationPool ∧
      m2.heap.next = m.heap.next + (sizeofHead + len.toNat) ∧ m2.heap.limit = m.heap.limit ∧
      m2.heap.live = (m.heap.next, sizeofHead + len.toNat) :: m.heap.live := by
  refine ⟨_, string_alloc_full_eq m data len hwf h0 hroom hsrc, rfl, ?_, ?_,
    rfl, rfl, rfl, rfl, rfl, rfl⟩
  · intro i hi
    have hin : m.heap.next + sizeofHead ≤ m.heap.next + sizeofHead + i ∧
        m.heap.next + sizeofHead + i < m.heap.next + sizeofHead + len.toNat := ⟨by omega, by omega⟩
    simp only [if_pos hin]
    congr 1
    omega
  · intro a ha
    have hout : ¬ (m.heap.next + sizeofHead ≤ a ∧ a < m.heap.next + sizeofHead + len.toNat) := by
      omega
    simp only [if_neg hout]

/-- What a successful `string_alloc_pointer` returns: a slot that was unused in the
head pool, with `data` and `length` stored; nothing else changes. -/
theorem string_alloc_pointer_ok (m : Machine) (data : Nat) (len : Int) (hwf : m.WF)
    (hready : m.headPool.ready) :
    ∃ q m2, string_alloc_pointer m data len = .ok (q, m2) ∧
      m.headPool.unused q ∧ m.headPool.base ≤ q ∧ q + sizeofHead ≤ m.headPool.stop ∧
      m2.heads = Function.update m.heads q { m.heads q with data := data, length := len } ∧
      m2.bytes = m.bytes ∧ m2.heap = m.heap ∧ m2.memTop = m.memTop ∧
      m2.locationPool = m.locationPool := by
  have hs := hwf.pool_slot
  have hu := hwf.pool_used
  have ha := hwf.pool_avail
  unfold string_alloc_pointer Pool.allocate
  cases hav : m.headPool.avail with
  | cons a rest =>
    have hmem : a ∈ m.headPool.avail := by rw [hav]; simp
    have hb := ha a hmem
    have hfree : m.headPool.unused a := Or.inl hmem
    have hst := hwf.pool_fits
    exact ⟨a, _, rfl, hfree, hb.1, by omega, rfl, rfl, rfl, rfl, rfl⟩
  | nil =>
    have hr : 0 < m.headPool.next ∧ m.headPool.next + m.headPool.slot ≤ m.headPool.stop := by
      rcases hready with h | h
      · exact absurd hav h
      · exact h
    rw [if_pos hr]
    have hpos : 0 < sizeofHead := by decide
    exact ⟨m.headPool.next, _, rfl, Or.inr ⟨le_refl _, by omega⟩, hu, by omega,
      rfl, rfl, rfl, rfl, rfl⟩

/-- The example machines are well formed. -/
theorem exMachine_wf (texts : List (Nat × List Byte)) (hs : List (Nat × Head)) :
    (exMachine texts hs).WF :=
  ⟨by simp [exMachine], by simp [exMachine], by simp [exMachine], rfl, by simp [exMachine],
    by simp [exMachine], by simp [exMachine]⟩

/-! ## Copying -/

/-- C9. The copy of a valid owned handle, when the heap has room for it, is a handle
of the same length whose payload bytes equal those of the original and whose
payload starts at a different address; the original is left as it was. -/
theorem string_copy_owned (m : Machine) (h : Nat) (hwf : m.WF) (hv : ValidHandle m h)
    (hown : isOwned m h = true) (hroom : m.heap.room (m.heads h).length.toNat) :
    ∃ c m1, string_copy m h = .ok (c, m1) ∧
      (m1.heads c).length = (m.heads h).length ∧
      (∀ i, i < (m.heads h).length.toNat → payloadByte m1 c i = payloadByte m h i) ∧
      (m1.heads c).data ≠ (m.heads h).data ∧
      c ≠ h ∧ m1.heads h = m.heads h ∧
      (∀ i, i < (m.heads h).length.toNat → payloadByte m1 h i = payloadByte m h i) := by
  obtain ⟨m2, hres, hheads, hcopy, hrest, -⟩ :=
    string_alloc_full_ok m (m.heads h).data (m.heads h).length hwf hv.len_nonneg hroom
      hv.payload_mapped
  have hown2 : h + sizeofHead = (m.heads h).data := by simpa [isOwned] using hown
  have hroom2 := hroom
  unfold Heap.room at hroom2
  have hpos : 0 < sizeofHead := by decide
  have hne : m.heap.next ≠ h := by
    rcases hv.record_heap with hr | hr
    · omega
    · omega
  have hh : m2.heads h = m.heads h := by
    rw [hheads]
    exact Function.update_noteq (Ne.symm hne) _ _
  have hc : m2.heads m.heap.next =
      { data := m.heap.next + sizeofHead, length := (m.heads h).length, location := 0 } := by
    rw [hheads]
    exact Function.update_same _ _ _
  refine ⟨m.heap.next, m2, ?_, ?_, ?_, ?_, hne, hh, ?_⟩
  · simp only [string_copy, if_pos hv.nonnull, if_pos hown2]
    exact hres
  · rw [hc]
  · intro i hi
    simp only [payloadByte, hc]
    exact hcopy i hi
  · rw [hc, ← hown2]
    simp only
    omega
  · intro i hi
    simp only [payloadByte, hh]
    apply hrest
    rcases hv.payload_heap with hp | hp
    · left
      omega
    · right
      omega

/-- C9, on the owned string "abd" at 1024: the copy is the block at 2048. -/
theorem string_copy_owned_witness :
    ∃ c m1, string_copy exAbc 1024 = .ok (c, m1) ∧
      (m1.heads c).length = (exAbc.heads 1024).length ∧
      (∀ i, i < (exAbc.heads 1024).length.toNat →
        payloadByte m1 c i = payloadByte exAbc 1024 i) ∧
      (m1.heads c).data ≠ (exAbc.heads 1024).data ∧
      c ≠ 1024 ∧ m1.heads 1024 = exAbc.heads 1024 ∧
      (∀ i, i < (exAbc.heads 1024).length.toNat →
        payloadByte m1 1024 i = payloadByte exAbc 1024 i) :=
  string_copy_owned exAbc 1024 (exMachine_wf _ _)
    ⟨by decide, by decide, by decide, by decide, by decide, by decide, by decide⟩
    (by decide) (by decide)

/-- C8. The copy of a valid borrowed handle, when the head pool can supply a slot, is
a record drawn from the unused slots of the pool, hence different from the
original, whose payload address and length are those of the original; no byte of
memory changes and nothing is taken from the heap. -/
theorem string_copy_borrowed (m : Machine) (h : Nat) (hwf : m.WF) (hv : ValidHandle m h)
    (hbor : isOwned m h = false) (hready : m.headPool.ready) :
    ∃ c m1, string_copy m h = .ok (c, m1) ∧
      m.headPool.unused c ∧ c ≠ h ∧
      (m1.heads c).data = (m.heads h).data ∧
      (m1.heads c).length = (m.heads h).length ∧
      m1.bytes = m.bytes ∧ m1.heap = m.heap ∧ m1.heads h = m.heads h := by
  obtain ⟨q, m2, hres, hun, -, -, hheads, hbytes, hheap, -⟩ :=
    string_alloc_pointer_ok m (m.heads h).data (m.heads h).length hwf hready
  have hbor2 : ¬ h + sizeofHead = (m.heads h).data := by simpa [isOwned] using hbor
  have hne : q ≠ h := fun e => hv.record_pool (e ▸ hun)
  refine ⟨q, m2, ?_, hun, hne, ?_, ?_, hbytes, hheap, ?_⟩
  · simp only [string_copy, if_pos hv.nonnull, if_neg hbor2]
    exact hres
  · rw [hheads, Function.update_same]
  · rw [hheads, Function.update_same]
  · rw [hheads]
    exact Function.update_noteq (Ne.symm hne) _ _

/-- C8, on the borrowed string "aa" at 536: the copy is the pool slot 560 and its
payload is the same address 257. -/
theorem string_copy_borrowed_witness :
    ∃ c m1, string_copy exZaa 536 = .ok (c, m1) ∧
      exZaa.headPool.unused c ∧ c ≠ 536 ∧
      (m1.heads c).data = (exZaa.heads 536).data ∧
      (m1.heads c).length = (exZaa.heads 536).length ∧
      m1.bytes = exZaa.bytes ∧ m1.heap = exZaa.heap ∧ m1.heads 536 = exZaa.heads 536 :=
  string_copy_borrowed exZaa 536 (exMachine_wf _ _)
    ⟨by decide, by decide, by decide, by decide, by decide, by decide, by decide⟩
    (by decide) (by decide)

/-- C7. The copy of a valid handle has the mode of the original: it is owned exactly
when the original is, provided the allocator that the copy draws on (the heap for
an owned handle, the head pool for a borrowed one) can supply it. -/
theorem string_copy_mode (m : Machine) (h : Nat) (hwf : m.WF) (hv : ValidHandle m h)
    (hheap : isOwned m h = true → m.heap.room (m.heads h).length.toNat)
    (hpool : isOwned m h = false → m.headPool.ready) :
    ∃ c m1, string_copy m h = .ok (c, m1) ∧ isOwned m1 c = isOwned m h := by
  cases hmode : isOwned m h with
  | true =>
    have hown2 : h + sizeofHead = (m.heads h).data := by simpa [isOwned] using hmode
    obtain ⟨m2, hres, hheads, -⟩ :=
      string_alloc_full_ok m (m.heads h).data (m.heads h).length hwf hv.len_nonneg
        (hheap hmode) hv.payload_mapped
    refine ⟨m.heap.next, m2, ?_, ?_⟩
    · simp only [string_copy, if_pos hv.nonnull, if_pos hown2]
      exact hres
    · simp [isOwned, hheads]
  | false =>
    have hbor2 : ¬ h + sizeofHead = (m.heads h).data := by simpa [isOwned] using hmode
    obtain ⟨q, m2, hres, -, hlo, hhi, hheads, -⟩ :=
      string_alloc_pointer_ok m (m.heads h).data (m.heads h).length hwf (hpool hmode)
    have hpos : 0 < sizeofHead := by decide
    refine ⟨q, m2, ?_, ?_⟩
    · simp only [string_copy, if_pos hv.nonnull, if_neg hbor2]
      exact hres
    · have hneq : ¬ q + sizeofHead = (m.heads h).data := by
        rcases hv.payload_pool with hp | hp
        · omega
        · omega
      simp [isOwned, hheads, hneq]

/-- C7, on the owned string "abd" at 1024, whose copy is owned. -/
theorem string_copy_mode_witness :
    isOwned exAbc 1024 = true ∧
    ∃ c m1, string_copy exAbc 1024 = .ok (c, m1) ∧ isOwned m1 c = isOwned exAbc 1024 :=
  ⟨by decide, string_copy_mode exAbc 1024 (exMachine_wf _ _)
    ⟨by decide, by decide, by decide, by decide, by decide, by decide, by decide⟩
    (fun _ => by decide) (fun _ => by decide)⟩

/-! ## Concatenation -/

/-- C5. For valid handles `a` and `b`, when the heap has room for the result,
`concat_str` returns a new owned handle whose length is the sum of the two lengths,
whose payload is the payload of `a` followed by the payload of `b`, and leaves the
records, the payload bytes and the modes of `a` and `b` as they were. -/
theorem concat_str_spec (m : Machine) (a b : Nat) (hwf : m.WF)
    (ha : ValidHandle m a) (hb : ValidHandle m b)
    (hroom : m.heap.room ((m.heads a).length.toNat + (m.heads b).length.toNat)) :
    ∃ c m1, concat_str m a b = .ok (c, m1) ∧
      isOwned m1 c = true ∧
      (m1.heads c).length = (m.heads a).length + (m.heads b).length ∧
      (∀ i, i < (m.heads a).length.toNat → payloadByte m1 c i = payloadByte m a i) ∧
      (∀ j, j < (m.heads b).length.toNat →
        payloadByte m1 c ((m.heads a).length.toNat + j) = payloadByte m b j) ∧
      c ≠ a ∧ c ≠ b ∧ m1.heads a = m.heads a ∧ m1.heads b = m.heads b ∧
      (∀ i, i < (m.heads a).length.toNat → payloadByte m1 a i = payloadByte m a i) ∧
      (∀ j, j < (m.heads b).length.toNat → payloadByte m1 b j = payloadByte m b j) ∧
      isOwned m1 a = isOwned m a ∧ isOwned m1 b = isOwned m b := by
  have h2 := hwf.heap_mapped
  have h3 := hwf.addr_space
  have hpos : 0 < sizeofHead := by decide
  have hroom2 := hroom
  unfold Heap.room at hroom2
  have ha0 := ha.len_nonneg
  have hb0 := hb.len_nonneg
  have ham := ha.payload_mapped
  have hbm := hb.payload_mapped
  have hsum : ((m.heads a).length + (m.heads b).length).toNat
      = (m.heads a).length.toNat + (m.heads b).length.toNat := by omega
  have hwrap : wrapLong ((m.heads a).length + (m.heads b).length)
      = (m.heads a).length + (m.heads b).length :=
    wrapLong_of_range _ (by unfold LONG_MIN; omega) (by unfold LONG_MAX; omega)
  have hsa : toSizeT (m.heads a).length = (m.heads a).length.toNat :=
    toSizeT_of_nonneg _ ha0 (by omega)
  have hsb : toSizeT (m.heads b).length = (m.heads b).length.toNat :=
    toSizeT_of_nonneg _ hb0 (by omega)
  have hna : m.heap.next ≠ a := by
    rcases ha.record_heap with hr | hr
    · omega
    · omega
  have hnb : m.heap.next ≠ b := by
    rcases hb.record_heap with hr | hr
    · omega
    · omega
  have hua : Function.update m.heads m.heap.next
      { data := m.heap.next + sizeofHead,
        length := (m.heads a).length + (m.heads b).length, location := 0 } a = m.heads a :=
    Function.update_noteq (Ne.symm hna) _ _
  have hub : Function.update m.heads m.heap.next
      { data := m.heap.next + sizeofHead,
        length := (m.heads a).length + (m.heads b).length, location := 0 } b = m.heads b :=
    Function.update_noteq (Ne.symm hnb) _ _
  have hf1 : m.heap.next + sizeofHead + (m.heads a).length.toNat ≤ m.memTop ∧
      (m.heads a).data + (m.heads a).length.toNat ≤ m.memTop := ⟨by omega, ham⟩
  have hf2 : m.heap.next + sizeofHead + (m.heads a).length.toNat + (m.heads b).length.toNat
        ≤ m.memTop ∧
      (m.heads b).data + (m.heads b).length.toNat ≤ m.memTop := ⟨by omega, hbm⟩
  unfold concat_str
  simp only [hwrap]
  rw [init_str_space_ok m _ hwf (by omega) (by rw [hsum]; exact hroom)]
  simp only [memcpy, hsa, hsb, hua, hub]
  rw [if_pos hf1]
  simp only [hub]
  rw [if_pos hf2]
  refine ⟨_, _, rfl, ?_, ?_, ?_, ?_, Ne.symm (Ne.symm hna), Ne.symm (Ne.symm hnb), hua, hub,
    ?_, ?_, ?_, ?_⟩
  · simp [isOwned]
  · simp
  · intro i hi
    have c1 : ¬ (m.heap.next + sizeofHead + (m.heads a).length.toNat
          ≤ m.heap.next + sizeofHead + i ∧
        m.heap.next + sizeofHead + i < m.heap.next + sizeofHead + (m.heads a).length.toNat
          + (m.heads b).length.toNat) := by omega
    have c2 : m.heap.next + sizeofHead ≤ m.heap.next + sizeofHead + i ∧
        m.heap.next + sizeofHead + i < m.heap.next + sizeofHead + (m.heads a).length.toNat := by
      omega
    simp only [payloadByte, Function.update_same, if_neg c1, if_pos c2]
    congr 1
    omega
  · intro j hj
    have c1 : m.heap.next + sizeofHead + (m.heads a).length.toNat
          ≤ m.heap.next + sizeofHead + ((m.heads a).length.toNat + j) ∧
        m.heap.next + sizeofHead + ((m.heads a).length.toNat + j)
          < m.heap.next + sizeofHead + (m.heads a).length.toNat
          + (m.heads b).length.toNat := by omega
    have hsrc : (m.heads b).data + (m.heap.next + sizeofHead + ((m.heads a).length.toNat + j)
        - (m.heap.next + sizeofHead + (m.heads a).length.toNat)) = (m.heads b).data + j := by
      omega
    have c2 : ¬ (m.heap.next + sizeofHead ≤ (m.heads b).data + j ∧
        (m.heads b).data + j < m.heap.next + sizeofHead + (m.heads a).length.toNat) := by
      rcases hb.payload_heap with hp | hp
      · omega
      · omega
    simp only [payloadByte, Function.update_same, if_pos c1, hsrc, if_neg c2]
  · intro i hi
    have c1 : ¬ (m.heap.next + sizeofHead + (m.heads a).length.toNat ≤ (m.heads a).data + i ∧
        (m.heads a).data + i < m.heap.next + sizeofHead + (m.heads a).length.toNat
          + (m.heads b).length.toNat) := by
      rcases ha.payload_heap with hp | hp
      · omega
      · omega
    have c2 : ¬ (m.heap.next + sizeofHead ≤ (m.heads a).data + i ∧
        (m.heads a).data + i < m.heap.next + sizeofHead + (m.heads a).length.toNat) := by
      rcases ha.payload_heap with hp | hp
      · omega
      · omega
    simp only [payloadByte, hua, if_neg c1, if_neg c2]
  · intro j hj
    have c1 : ¬ (m.heap.next + sizeofHead + (m.heads a).length.toNat ≤ (m.heads b).data + j ∧
        (m.heads b).data + j < m.heap.next + sizeofHead + (m.heads a).length.toNat
          + (m.heads b).length.toNat) := by
      rcases hb.payload_heap with hp | hp
      · omega
      · omega
    have c2 : ¬ (m.heap.next + sizeofHead ≤ (m.heads b).data + j ∧
        (m.heads b).data + j < m.heap.next + sizeofHead + (m.heads a).length.toNat) := by
      rcases hb.payload_heap with hp | hp
      · omega
      · omega
    simp only [payloadByte, hub, if_neg c1, if_neg c2]
  · simp only [isOwned, hua]
  · simp only [isOwned, hub]

/-- C5, on "abc" (borrowed) and "abd" (owned): the result is the owned block at 2048,
of length 6. -/
theorem concat_str_spec_witness :
    ∃ c m1, concat_str exAbc 512 1024 = .ok (c, m1) ∧
      isOwned m1 c = true ∧ (m1.heads c).length = 6 ∧
      payloadByte m1 c 2 = payloadByte exAbc 512 2 ∧
      payloadByte m1 c 5 = payloadByte exAbc 1024 2 := by
  obtain ⟨c, m1, h1, h2, h3, h4, h5, _⟩ := concat_str_spec exAbc 512 1024 (exMachine_wf _ _)
    ⟨by decide, by decide, by decide, by decide, by decide, by decide, by decide⟩
    ⟨by decide, by decide, by decide, by decide, by decide, by decide, by decide⟩
    (by decide)
  exact ⟨c, m1, h1, h2, by rw [h3]; decide, h4 2 (by decide), h5 2 (by decide)⟩

/-! ## Decimal text -/

/-- The byte stored for the digit `k`. -/
theorem byteOfInt_digit (k : Nat) (hk : k < 10) : (byteOfInt (48 + (k : Int))).val = 48 + k := by
  simp only [byteOfInt]
  omega

/-- The accumulator of `digitsAux` is a suffix of its result. -/
theorem digitsAux_append : ∀ (fuel n : Nat) (acc : List Byte),
    digitsAux fuel n acc = digitsAux fuel n [] ++ acc := by
  intro fuel
  induction fuel with
  | zero =>
    intro n acc
    simp [digitsAux]
  | succ f ih =>
    intro n acc
    by_cases h : n < 10
    · simp [digitsAux, h]
    · simp only [digitsAux, if_neg h]
      rw [ih (n / 10) (_ :: acc), ih (n / 10) [_]]
      simp

/-- The value of a digit run extended by one digit. -/
theorem decValue_snoc (ds : List Byte) (d : Byte) (acc : Nat) :
    decValue (ds ++ [d]) acc = decValue ds acc * 10 + (d.val - 48) := by
  simp [decValue, List.foldl_append]

/-- The digits of `n` are decimal digits whose value is `n`. -/
theorem digitsAux_value : ∀ (fuel n : Nat), n < 10 ^ fuel →
    decValue (digitsAux fuel n []) 0 = n ∧
    (∀ d, d ∈ digitsAux fuel n [] → isdigit d = true) := by
  intro fuel
  induction fuel with
  | zero =>
    intro n hn
    have h0 : n = 0 := by simpa using hn
    subst h0
    simp [digitsAux, decValue]
  | succ f ih =>
    intro n hn
    by_cases h : n < 10
    · have hb := byteOfInt_digit n h
      simp only [digitsAux, if_pos h]
      constructor
      · simp only [decValue, List.foldl_cons, List.foldl_nil, hb]
        omega
      · intro d hd
        have hd2 : d = byteOfInt (48 + (n : Int)) := by simpa using hd
        subst hd2
        simp only [isdigit, hb, decide_eq_true_eq]
        omega
    · have hlt : n / 10 < 10 ^ f := by
        rw [pow_succ] at hn
        omega
      obtain ⟨hv, hd⟩ := ih (n / 10) hlt
      have hb := byteOfInt_digit (n % 10) (by omega)
      simp only [digitsAux, if_neg h]
      rw [digitsAux_append]
      constructor
      · rw [decValue_snoc, hv]
        have : ((byteOfInt (48 + ((n % 10 : Nat) : Int))).val) - 48 = n % 10 := by omega
        have hcast : (48 + ((n : Int) % 10)) = (48 + ((n % 10 : Nat) : Int)) := by simp
        rw [hcast, this]
        omega
      · intro d hmem
        rcases List.mem_append.mp hmem with h1 | h1
        · exact hd d h1
        · have hd2 : d = byteOfInt (48 + ((n : Int) % 10)) := by simpa using h1
          have hcast : (48 + ((n : Int) % 10)) = (48 + ((n % 10 : Nat) : Int)) := by simp
          subst hd2
          rw [hcast]
          simp only [isdigit, hb, decide_eq_true_eq]
          omega

/-- The number of digits of `n` is at most `k` when `n` is below the `k`-th power of
ten, and at least one. -/
theorem digitsAux_length : ∀ (fuel n k : Nat) (acc : List Byte), 1 ≤ k → k ≤ fuel →
    n < 10 ^ k →
    (digitsAux fuel n acc).length ≤ k + acc.length ∧
      acc.length < (digitsAux fuel n acc).length := by
  intro fuel
  induction fuel with
  | zero =>
    intro n k acc h1 h2
    omega
  | succ f ih =>
    intro n k acc h1 h2 hn
    by_cases h : n < 10
    · simp only [digitsAux, if_pos h, List.length_cons]
      omega
    · simp only [digitsAux, if_neg h]
      have hk2 : 2 ≤ k := by
        by_contra hc
        have : k = 1 := by omega
        subst this
        simp at hn
        omega
      have hlt : n / 10 < 10 ^ (k - 1) := by
        have hk : k = (k - 1) + 1 := by omega
        rw [hk, pow_succ] at hn
        omega
      obtain ⟨hle, hgt⟩ := ih (n / 10) (k - 1) (byteOfInt (48 + (n : Int) % 10) :: acc)
        (by omega) (by omega) hlt
      simp only [List.length_cons] at hle hgt
      omega

/-- `strlen` on `k` non-zero bytes followed by a zero byte. -/
theorem strlenScan_run (m : Machine) : ∀ (k a n fuel : Nat),
    (∀ i, i < k → (m.bytes (a + i)).val ≠ 0) → (m.bytes (a + k)).val = 0 →
    a + k < m.memTop → k < fuel → strlenScan m fuel a n = .ok (n + k) := by
  intro k
  induction k with
  | zero =>
    intro a n fuel _ hz htop hfuel
    obtain ⟨f, rfl⟩ : ∃ f, fuel = f + 1 := ⟨fuel - 1, by omega⟩
    have h1 : ¬ m.memTop ≤ a := by omega
    simp [strlenScan, h1, (by simpa using hz : (m.bytes a).val = 0)]
  | succ k ih =>
    intro a n fuel hnz hz htop hfuel
    obtain ⟨f, rfl⟩ : ∃ f, fuel = f + 1 := ⟨fuel - 1, by omega⟩
    have h1 : ¬ m.memTop ≤ a := by omega
    have h2 : ¬ (m.bytes a).val = 0 := by simpa using hnz 0 (by omega)
    simp only [strlenScan, if_neg h1, if_neg h2]
    rw [ih (a + 1) (n + 1) f
      (by
        intro i hi
        rw [show a + 1 + i = a + (i + 1) by omega]
        exact hnz (i + 1) (by omega))
      (by rw [show a + 1 + k = a + (k + 1) by omega]; exact hz) (by omega) (by omega)]
    congr 1
    omega

/-- The digit scan of `strtol` on a run of digits followed by a byte that is not a
digit. -/
theorem scanDigits_run (m : Machine) : ∀ (ds : List Byte) (a acc fuel : Nat),
    (∀ d, d ∈ ds → isdigit d = true) →
    (∀ i, i < ds.length → m.bytes (a + i) = ds.getD i 0) →
    a + ds.length < m.memTop → isdigit (m.bytes (a + ds.length)) = false →
    ds.length < fuel → scanDigits m fuel a acc = .ok (decValue ds acc) := by
  intro ds
  induction ds with
  | nil =>
    intro a acc fuel _ _ htop hstop hfuel
    obtain ⟨f, rfl⟩ : ∃ f, fuel = f + 1 := ⟨fuel - 1, by omega⟩
    have h1 : ¬ m.memTop ≤ a := by simpa using htop
    have h2 : isdigit (m.bytes a) = false := by simpa using hstop
    simp [scanDigits, h1, h2, decValue]
  | cons d ds ih =>
    intro a acc fuel hdig hmem htop hstop hfuel
    obtain ⟨f, rfl⟩ : ∃ f, fuel = f + 1 := ⟨fuel - 1, by simp at hfuel; omega⟩
    simp only [List.length_cons] at htop hstop hfuel
    have h1 : ¬ m.memTop ≤ a := by omega
    have hb : m.bytes a = d := by simpa using hmem 0 (by simp)
    have h2 : isdigit (m.bytes a) = true := by
      rw [hb]
      exact hdig d (by simp)
    simp only [scanDigits, if_neg h1, h2, if_true]
    rw [ih (a + 1) (acc * 10 + ((m.bytes a).val - 48)) f
      (fun x hx => hdig x (by simp [hx]))
      (by
        intro i hi
        rw [show a + 1 + i = a + (i + 1) by omega]
        simpa using hmem (i + 1) (by simp; omega))
      (by omega)
      (by rw [show a + 1 + ds.length = a + (ds.length + 1) by omega]; exact hstop)
      (by omega)]
    simp [decValue, hb]

/-- `strtol` on an unsigned run of digits. -/
theorem strtol_unsigned (m : Machine) (p : Nat) (ds : List Byte)
    (hne : 0 < ds.length) (hdig : ∀ d, d ∈ ds → isdigit d = true)
    (hmem : ∀ i, i < ds.length → m.bytes (p + i) = ds.getD i 0)
    (htop : p + ds.length < m.memTop)
    (hstop : isdigit (m.bytes (p + ds.length)) = false) :
    strtol m p = .ok (clampLong (decValue ds 0)) := by
  obtain ⟨f, hf⟩ : ∃ f, m.memTop + 1 - p = f + 1 := ⟨m.memTop - p, by omega⟩
  have h1 : ¬ m.memTop ≤ p := by omega
  have hd0 : isdigit (m.bytes p) = true := by
    cases ds with
    | nil => simp at hne
    | cons d ds =>
      have hb : m.bytes p = d := by simpa using hmem 0 (by simp)
      rw [hb]
      exact hdig d (by simp)
  have hrange : 48 ≤ (m.bytes p).val ∧ (m.bytes p).val ≤ 57 := by
    simpa [isdigit] using hd0
  have hsp : isspace (m.bytes p) = false := by
    simp only [isspace, decide_eq_false_iff_not]
    omega
  have h45 : ¬ (m.bytes p).val = 45 := by omega
  have hsign : ¬ ((m.bytes p).val = 45 ∨ (m.bytes p).val = 43) := by omega
  have hskip : skipSpace m (f + 1) p = .ok p := by simp [skipSpace, h1, hsp]
  unfold strtol
  rw [hf, hskip]
  have h43 : ¬ (m.bytes p).val = 43 := by omega
  have hscan := scanDigits_run m ds p 0 (m.memTop + 1 - p) hdig hmem htop hstop (by omega)
  simp [h45, h43, hscan]

/-- `strtol` on a minus sign followed by a run of digits. -/
theorem strtol_minus (m : Machine) (p : Nat) (ds : List Byte)
    (hminus : (m.bytes p).val = 45)
    (hdig : ∀ d, d ∈ ds → isdigit d = true)
    (hmem : ∀ i, i < ds.length → m.bytes (p + 1 + i) = ds.getD i 0)
    (htop : p + 1 + ds.length < m.memTop)
    (hstop : isdigit (m.bytes (p + 1 + ds.length)) = false) :
    strtol m p = .ok (clampLong (-(decValue ds 0 : Int))) := by
  obtain ⟨f, hf⟩ : ∃ f, m.memTop + 1 - p = f + 1 := ⟨m.memTop - p, by omega⟩
  have h1 : ¬ m.memTop ≤ p := by omega
  have hsp : isspace (m.bytes p) = false := by
    simp only [isspace, decide_eq_false_iff_not]
    omega
  have hsign : (m.bytes p).val = 45 ∨ (m.bytes p).val = 43 := Or.inl hminus
  have hskip : skipSpace m (f + 1) p = .ok p := by simp [skipSpace, h1, hsp]
  unfold strtol
  rw [hf, hskip]
  have hscan := scanDigits_run m ds (p + 1) 0 (m.memTop - p) hdig hmem htop hstop
    (by omega)
  simp [hminus, hscan]

/-- Every byte of the text of `"%ld"` is a minus sign or a decimal digit. -/
theorem formatLong_bytes (v : Int) (hv : v.natAbs < 10 ^ 20) :
    ∀ b, b ∈ formatLong v → b.val = 45 ∨ isdigit b = true := by
  intro b hb
  have hd := (digitsAux_value 20 v.natAbs hv).2
  unfold formatLong at hb
  by_cases hneg : v < 0
  · rw [if_pos hneg] at hb
    rcases List.mem_cons.mp hb with h | h
    · left
      rw [h]
      rfl
    · exact Or.inr (hd b h)
  · rw [if_neg hneg] at hb
    exact Or.inr (hd b hb)

/-- State after `sprintf` has written the text of `v` and its terminator to the local
buffer. -/
theorem sprintf_ld_ok (m : Machine) (v : Int) (hlen : (formatLong v).length + 1 ≤ 20)
    (hfm : m.frame + 20 ≤ m.memTop) :
    ∃ m1, sprintf_ld m m.frame 20 v = .ok m1 ∧
      (∀ i, i < (formatLong v).length → m1.bytes (m.frame + i) = (formatLong v).getD i 0) ∧
      m1.bytes (m.frame + (formatLong v).length) = 0 ∧
      (∀ a, a < m.frame ∨ m.frame + 20 ≤ a → m1.bytes a = m.bytes a) ∧
      m1.heap = m.heap ∧ m1.memTop = m.memTop ∧ m1.heads = m.heads ∧ m1.frame = m.frame ∧
      m1.headPool = m.headPool ∧ m1.locationPool = m.locationPool := by
  have hc : ¬ m.memTop < m.frame + 20 := by omega
  unfold sprintf_ld
  rw [if_neg hc, if_pos hlen]
  refine ⟨_, rfl, ?_, ?_, ?_, rfl, rfl, rfl, rfl, rfl, rfl⟩
  · intro i hi
    have hin : m.frame ≤ m.frame + i ∧ m.frame + i < m.frame + (formatLong v ++ [0]).length := by
      simp only [List.length_append, List.length_singleton]
      omega
    simp only [writeBytes, if_pos hin, Nat.add_sub_cancel_left]
    exact List.getD_append _ _ _ _ hi
  · have hin : m.frame ≤ m.frame + (formatLong v).length ∧
        m.frame + (formatLong v).length < m.frame + (formatLong v ++ [0]).length := by
      simp only [List.length_append, List.length_singleton]
      omega
    simp only [writeBytes, if_pos hin, Nat.add_sub_cancel_left]
    rw [List.getD_append_right _ _ _ _ (le_refl _)]
    simp
  · intro a ha
    have hout : ¬ (m.frame ≤ a ∧ a < m.frame + (formatLong v ++ [0]).length) := by
      simp only [List.length_append, List.length_singleton]
      omega
    simp only [writeBytes, if_neg hout]

/-- The text of an `int` has at least one and at most eleven characters, and is the
digits of its magnitude after a minus sign for a negative value. -/
theorem formatLong_int (v : Int) (hlo : INT_MIN ≤ v) (hhi : v ≤ INT_MAX) :
    1 ≤ (digitsAux 20 v.natAbs []).length ∧ (digitsAux 20 v.natAbs []).length ≤ 10 ∧
    decValue (digitsAux 20 v.natAbs []) 0 = v.natAbs ∧
    (∀ d, d ∈ digitsAux 20 v.natAbs [] → isdigit d = true) ∧
    v.natAbs < 10 ^ 20 := by
  unfold INT_MIN at hlo
  unfold INT_MAX at hhi
  have h10 : v.natAbs < 10 ^ 10 := by
    norm_num
    omega
  have h20 : v.natAbs < 10 ^ 20 := by
    norm_num
    omega
  obtain ⟨hle, hgt⟩ := digitsAux_length 20 v.natAbs 10 [] (by decide) (by decide) h10
  obtain ⟨hval, hdig⟩ := digitsAux_value 20 v.natAbs h20
  simp only [List.length_nil] at hle hgt
  exact ⟨by omega, by omega, hval, hdig, h20⟩

/-! ## Integer round trip -/

/-- C1, as amended. For every `v` in the range of a 32-bit `int`, when the local buffer
of `int_to_str` is mapped and lies outside the unused heap, the heap has room
for the text of `v` and one more byte, and the byte that will follow the payload
is not a decimal digit, `str_atoi( int_to_str( v ) )` returns `v`. -/
theorem roundTrip_int (m : Machine) (v : Int) (hwf : m.WF)
    (hlo : INT_MIN ≤ v) (hhi : v ≤ INT_MAX)
    (hfm : m.frame + 20 ≤ m.memTop)
    (hframe : m.frame + 20 ≤ m.heap.next ∨ m.heap.limit ≤ m.frame)
    (hroom : m.heap.room ((formatLong v).length + 1))
    (hstop : isdigit (m.bytes (m.heap.next + sizeofHead + (formatLong v).length)) = false) :
    roundTrip m v = .ok v := by
  obtain ⟨hD1, hD10, hval, hdig, h20⟩ := formatLong_int v hlo hhi
  have hpos : 0 < sizeofHead := by decide
  have htext : formatLong v =
      if v < 0 then (45 : Byte) :: digitsAux 20 v.natAbs [] else digitsAux 20 v.natAbs [] := rfl
  have hL : (formatLong v).length ≤ 11 := by
    rw [htext]
    split
    · simp only [List.length_cons]
      omega
    · omega
  have hroom2 := hroom
  unfold Heap.room at hroom2
  have hmapped := hwf.heap_mapped
  obtain ⟨m1, hspr, hb1, hz1, hout1, hheap1, htop1, hheads1, hframe1, hpool1, -⟩ :=
    sprintf_ld_ok m v (by omega) hfm
  have hwf1 : m1.WF :=
    ⟨by rw [hheap1]; exact hwf.heap_pos, by rw [hheap1, htop1]; exact hwf.heap_mapped,
     by rw [htop1]; exact hwf.addr_space, by rw [hpool1]; exact hwf.pool_slot,
     by rw [hpool1]; exact hwf.pool_used, by rw [hpool1]; exact hwf.pool_fits,
     by rw [hpool1]; exact hwf.pool_avail⟩
  have hlen : strlen m1 m1.frame = .ok (formatLong v).length := by
    unfold strlen
    rw [hframe1, htop1]
    have := strlenScan_run m1 (formatLong v).length m.frame 0 (m.memTop + 1 - m.frame)
      (by
        intro i hi
        rw [hb1 i hi]
        have hmem : (formatLong v).getD i 0 ∈ formatLong v := by
          rw [List.getD_eq_getElem _ 0 hi]
          exact List.getElem_mem hi
        rcases formatLong_bytes v h20 _ hmem with h | h
        · omega
        · have : 48 ≤ ((formatLong v).getD i 0).val ∧ ((formatLong v).getD i 0).val ≤ 57 := by
            simpa [isdigit] using h
          omega)
      (by rw [hz1]; rfl) (by rw [htop1]; omega) (by omega)
    simpa using this
  obtain ⟨m2, halloc, hheads2, hcopy2, hrest2, htop2, -⟩ :=
    string_alloc_full_ok m1 m1.frame ((formatLong v).length : Int) hwf1 (by omega)
      (by
        unfold Heap.room
        rw [hheap1, Int.toNat_natCast]
        omega)
      (by rw [hframe1, htop1, Int.toNat_natCast]; omega)
  simp only [hheap1, hframe1, Int.toNat_natCast] at hcopy2 hrest2
  rw [hheap1] at halloc hheads2
  have hdata : (m2.heads m.heap.next).data = m.heap.next + sizeofHead := by
    rw [hheads2, Function.update_same]
  have hpay : ∀ i, i < (formatLong v).length →
      m2.bytes (m.heap.next + sizeofHead + i) = (formatLong v).getD i 0 := by
    intro i hi
    rw [hcopy2 i hi, hb1 i hi]
  have hend : m2.bytes (m.heap.next + sizeofHead + (formatLong v).length)
      = m.bytes (m.heap.next + sizeofHead + (formatLong v).length) := by
    rw [hrest2 _ (Or.inr (le_refl _))]
    apply hout1
    rcases hframe with h | h
    · right
      omega
    · left
      omega
  have htopm : m2.memTop = m.memTop := by rw [htop2, htop1]
  unfold roundTrip int_to_str
  rw [hspr]
  simp only
  rw [hlen]
  simp only
  rw [halloc]
  simp only [str_atoi, atoi, hdata]
  by_cases hneg : v < 0
  · rw [if_pos hneg] at htext
    have hlen2 : (formatLong v).length = (digitsAux 20 v.natAbs []).length + 1 := by
      rw [htext, List.length_cons]
    have h0 := hpay 0 (by omega)
    rw [htext] at h0
    have hst := strtol_minus m2 (m.heap.next + sizeofHead) (digitsAux 20 v.natAbs [])
      (by
        rw [Nat.add_zero] at h0
        rw [h0]
        rfl)
      hdig
      (by
        intro i hi
        have := hpay (i + 1) (by omega)
        rw [htext] at this
        rw [show m.heap.next + sizeofHead + 1 + i = m.heap.next + sizeofHead + (i + 1) by omega,
          this]
        simp)
      (by rw [htopm]; omega)
      (by
        rw [show m.heap.next + sizeofHead + 1 + (digitsAux 20 v.natAbs []).length
          = m.heap.next + sizeofHead + (formatLong v).length by omega, hend]
        exact hstop)
    rw [hst, hval]
    simp only
    have hcl : clampLong (-(v.natAbs : Int)) = v := by
      unfold clampLong LONG_MIN LONG_MAX
      unfold INT_MIN at hlo
      unfold INT_MAX at hhi
      have e : -(v.natAbs : Int) = v := by omega
      rw [e, if_neg (by omega), if_neg (by omega)]
    rw [hcl, wrapInt_of_range v hlo hhi]
  · rw [if_neg hneg] at htext
    have hlen2 : (formatLong v).length = (digitsAux 20 v.natAbs []).length := by
      rw [htext]
    have hst := strtol_unsigned m2 (m.heap.next + sizeofHead) (digitsAux 20 v.natAbs [])
      (by omega) hdig
      (by
        intro i hi
        have := hpay i (by omega)
        rw [htext] at this
        exact this)
      (by rw [htopm]; omega)
      (by
        rw [← hlen2, hend]
        exact hstop)
    rw [hst, hval]
    simp only
    have hcl : clampLong ((v.natAbs : Nat) : Int) = v := by
      unfold clampLong LONG_MIN LONG_MAX
      unfold INT_MIN at hlo
      unfold INT_MAX at hhi
      have e : ((v.natAbs : Nat) : Int) = v := by omega
      rw [e, if_neg (by omega), if_neg (by omega)]
    rw [hcl, wrapInt_of_range v hlo hhi]

/-- C1, a favourable instance: the text "-120" in a zeroed heap reads back as -120. -/
theorem roundTrip_int_witness : roundTrip (exMachine [] []) (-120) = .ok (-120) :=
  roundTrip_int (exMachine [] []) (-120) (exMachine_wf _ _) (by decide) (by decide)
    (by decide) (by decide) (by decide) (by decide)

/-- C1 fails as stated: for `v = 2^31`, a value of a `Word` outside the range of `int`,
`int_to_str` produces the text "2147483648", which a zero byte follows, and
`str_atoi` returns `-2^31`, the `int` that `atoi` reduces the parsed value to. And
when the heap byte that comes to lie behind the payload holds the digit "7", the
text "1" of `v = 1` is read back as 17. -/
theorem roundTrip_counterexample :
    (roundTrip (exMachine [] []) 2147483648 = .ok (-2147483648) ∧
      roundTrip (exMachine [] []) 2147483648 ≠ .ok 2147483648) ∧
    (roundTrip (exMachine [(2073, [55])] []) 1 = .ok 17 ∧
      roundTrip (exMachine [(2073, [55])] []) 1 ≠ .ok 1) :=
  ⟨⟨rfl, fun h =>
    absurd (Except.ok.inj ((rfl : roundTrip (exMachine [] []) 2147483648
      = .ok (-2147483648)).symm.trans h)) (by decide)⟩,
   ⟨rfl, fun h =>
    absurd (Except.ok.inj ((rfl : roundTrip (exMachine [(2073, [55])] []) 1
      = .ok 17).symm.trans h)) (by decide)⟩⟩

/-- C2 fails on the code: two handles of length 2 with the same two payload bytes "12",
one a slice of the buffer "1234" and one followed by a zero byte, are read by
`str_atoi` as 1234 and as 12. -/
theorem str_atoi_reads_past_length :
    (ex1234.heads 512).length = 2 ∧ (ex12.heads 512).length = 2 ∧
    (∀ i, i < 2 → payloadByte ex1234 512 i = payloadByte ex12 512 i) ∧
    str_atoi ex1234 512 = .ok 1234 ∧ str_atoi ex12 512 = .ok 12 :=
  ⟨by decide, by decide, by decide, rfl, rfl⟩

/-! ## Case conversion -/

/-- The conversion to `int` never exceeds `INT_MAX`. -/
theorem wrapInt_le (x : Int) : wrapInt x ≤ INT_MAX := by
  unfold wrapInt INT_MAX
  omega

/-- With a length above `INT_MAX` the `int` counter of the conversion loop never
reaches the length: the loop runs until it touches unmapped memory. -/
theorem caseLoop_overrun (f : Int → Int) (len : Int) (hlen : INT_MAX < len) :
    ∀ (fuel : Nat) (i : Int) (src dst : Nat) (m : Machine), i ≤ INT_MAX →
      caseLoop f len fuel i src dst m = .error .segv := by
  intro fuel
  induction fuel with
  | zero =>
    intro i src dst m _
    rfl
  | succ k ih =>
    intro i src dst m hi
    have hlt : i < len := by omega
    by_cases hc : m.memTop ≤ src ∨ m.memTop ≤ dst
    · simp only [caseLoop, if_pos hlt, if_pos hc]
    · simp only [caseLoop, if_pos hlt, if_neg hc]
      exact ih _ _ _ _ (wrapInt_le _)

/-- The machine `exHuge` is well formed. -/
theorem exHuge_wf : exHuge.WF :=
  ⟨by decide, by decide, by decide, rfl, by decide, by decide, by decide⟩

/-- On a handle longer than `INT_MAX`, `string_toupper` does not return a handle even
when the block for the result can be allocated. -/
theorem string_toupper_overrun (m : Machine) (s : Nat) (hwf : m.WF)
    (hroom : m.heap.room (m.heads s).length.toNat) (hbig : INT_MAX < (m.heads s).length) :
    string_toupper m s = .error .segv := by
  have h0 : 0 ≤ (m.heads s).length := by
    unfold INT_MAX at hbig
    omega
  unfold string_toupper
  simp only
  rw [init_str_space_ok m _ hwf h0 hroom]
  simp only
  rw [caseLoop_overrun toupper _ hbig _ _ _ _ _ (by decide)]

/-- On a handle longer than `INT_MAX`, `string_tolower` does not return a handle even
when the block for the result can be allocated. -/
theorem string_tolower_overrun (m : Machine) (s : Nat) (hwf : m.WF)
    (hroom : m.heap.room (m.heads s).length.toNat) (hbig : INT_MAX < (m.heads s).length) :
    string_tolower m s = .error .segv := by
  have h0 : 0 ≤ (m.heads s).length := by
    unfold INT_MAX at hbig
    omega
  unfold string_tolower
  simp only
  rw [init_str_space_ok m _ hwf h0 hroom]
  simp only
  rw [caseLoop_overrun tolower _ hbig _ _ _ _ _ (by decide)]

/-- C6 fails on the code: on a well-formed machine whose heap has room for the result,
the valid handle of length `2^31` makes both `string_toupper` and `string_tolower`
run off the end of mapped memory instead of returning a handle. -/
theorem string_toupper_huge :
    exHuge.WF ∧ ValidHandle exHuge 512 ∧ (exHuge.heads 512).length = 2147483648 ∧
    exHuge.heap.room (exHuge.heads 512).length.toNat ∧
    string_toupper exHuge 512 = .error .segv ∧
    string_tolower exHuge 512 = .error .segv :=
  ⟨exHuge_wf,
    ⟨by decide, by decide, by decide, by decide, by decide, by decide, by decide⟩,
    by decide, by decide,
    string_toupper_overrun exHuge 512 exHuge_wf (by decide) (by decide),
    string_tolower_overrun exHuge 512 exHuge_wf (by decide) (by decide)⟩

/-- Through a signed `char`, `toupper` and the store back to a `char` give the ASCII
upper-case image, for bytes at or above `0x80` too. -/
theorem toupper_byte (b : Byte) : byteOfInt (toupper (charOfByte b)) = asciiUpper b := by
  obtain ⟨n, hn⟩ := b
  apply Fin.ext
  simp only [asciiUpper, byteOfInt, toupper, charOfByte]
  split_ifs <;> simp only [] <;> omega

/-- Through a signed `char`, `tolower` and the store back to a `char` give the ASCII
lower-case image, for bytes at or above `0x80` too. -/
theorem tolower_byte (b : Byte) : byteOfInt (tolower (charOfByte b)) = asciiLower b := by
  obtain ⟨n, hn⟩ := b
  apply Fin.ext
  simp only [asciiLower, byteOfInt, tolower, charOfByte]
  split_ifs <;> simp only [] <;> omega

/-- The conversion loop on `r` remaining bytes, when the length fits an `int` and the
source and destination ranges are mapped and apart. -/
theorem caseLoop_ok (f : Int → Int) (len : Int) (hlen : len ≤ INT_MAX) :
    ∀ (r fuel : Nat) (i : Int) (src dst : Nat) (m : Machine),
      0 ≤ i → i + r = len → r < fuel → src + r ≤ m.memTop → dst + r ≤ m.memTop →
      (src + r ≤ dst ∨ dst + r ≤ src) →
      ∃ m1, caseLoop f len fuel i src dst m = .ok m1 ∧
        (∀ j, j < r → m1.bytes (dst + j) = byteOfInt (f (charOfByte (m.bytes (src + j))))) ∧
        (∀ a, a < dst ∨ dst + r ≤ a → m1.bytes a = m.bytes a) ∧
        m1.heads = m.heads ∧ m1.heap = m.heap ∧ m1.memTop = m.memTop ∧
        m1.headPool = m.headPool ∧ m1.locationPool = m.locationPool := by
  intro r
  induction r with
  | zero =>
    intro fuel i src dst m _ hi hfuel _ _ _
    obtain ⟨k, rfl⟩ : ∃ k, fuel = k + 1 := ⟨fuel - 1, by omega⟩
    have hnl : ¬ i < len := by
      simp at hi
      omega
    refine ⟨m, by simp only [caseLoop, if_neg hnl], ?_, fun _ _ => rfl, rfl, rfl, rfl, rfl, rfl⟩
    intro j hj
    omega
  | succ r ih =>
    intro fuel i src dst m h0 hi hfuel hsrc hdst hapart
    obtain ⟨k, rfl⟩ : ∃ k, fuel = k + 1 := ⟨fuel - 1, by omega⟩
    have hlt : i < len := by
      push_cast at hi
      omega
    have hc : ¬ (m.memTop ≤ src ∨ m.memTop ≤ dst) := by omega
    have hw : wrapInt (i + 1) = i + 1 := by
      apply wrapInt_of_range
      · unfold INT_MIN
        omega
      · push_cast at hi
        omega
    obtain ⟨m1, hres, hconv, hout, hh, hhp, htop, hpool, hloc⟩ :=
      ih k (i + 1) (src + 1) (dst + 1)
        { m with bytes := Function.update m.bytes dst (byteOfInt (f (charOfByte (m.bytes src)))) }
        (by omega) (by push_cast at hi; omega) (by omega) (by simp only; omega)
        (by simp only; omega) (by omega)
    refine ⟨m1, ?_, ?_, ?_, hh, hhp, htop, hpool, hloc⟩
    · simp only [caseLoop, if_pos hlt, if_neg hc, hw]
      exact hres
    · intro j hj
      cases j with
      | zero =>
        rw [Nat.add_zero, Nat.add_zero, hout dst (Or.inl (by omega))]
        simp only [Function.update_same]
      | succ j =>
        have := hconv j (by omega)
        rw [show dst + (j + 1) = dst + 1 + j by omega, this]
        have hne : src + 1 + j ≠ dst := by omega
        simp only [Function.update_noteq hne]
        rw [show src + (j + 1) = src + 1 + j by omega]
    · intro a ha
      rw [hout a (by omega)]
      have hne : a ≠ dst := by omega
      simp only [Function.update_noteq hne]

/-- The common shape of `string_toupper` and `string_tolower` on a valid handle whose
length fits an `int`: a new owned handle of the same length, each byte the
image of the corresponding byte of the original, which is left as it was. -/
theorem caseConv_ok (f : Int → Int) (m : Machine) (h : Nat) (hwf : m.WF)
    (hv : ValidHandle m h) (hsmall : (m.heads h).length ≤ INT_MAX)
    (hroom : m.heap.room (m.heads h).length.toNat) :
    ∃ c m2,
      (match init_str_space m (m.heads h).length with
        | .error e => .error e
        | .ok (head, m1) =>
          match caseLoop f (m.heads h).length (m1.memTop + 1) 0 (m1.heads h).data
              (head + sizeofHead) m1 with
          | .error e => .error e
          | .ok m2 => .ok (head, m2)) = (.ok (c, m2) : Except Fault (Nat × Machine)) ∧
      isOwned m2 c = true ∧
      (m2.heads c).length = (m.heads h).length ∧
      (∀ i, i < (m.heads h).length.toNat →
        payloadByte m2 c i = byteOfInt (f (charOfByte (payloadByte m h i)))) ∧
      c ≠ h ∧ m2.heads h = m.heads h ∧
      (∀ i, i < (m.heads h).length.toNat → payloadByte m2 h i = payloadByte m h i) := by
  have hpos : 0 < sizeofHead := by decide
  have hroom2 := hroom
  unfold Heap.room at hroom2
  have hmapped := hwf.heap_mapped
  have h0 := hv.len_nonneg
  have hne : m.heap.next ≠ h := by
    rcases hv.record_heap with hr | hr
    · omega
    · omega
  have hu : Function.update m.heads m.heap.next
      { data := m.heap.next + sizeofHead, length := (m.heads h).length, location := 0 } h
        = m.heads h :=
    Function.update_noteq (Ne.symm hne) _ _
  rw [init_str_space_ok m _ hwf h0 hroom]
  simp only [hu]
  obtain ⟨m2, hres, hconv, hout, hh, -⟩ :=
    caseLoop_ok f (m.heads h).length hsmall (m.heads h).length.toNat (m.memTop + 1) 0
      (m.heads h).data (m.heap.next + sizeofHead)
      { m with
        heap := { m.heap with
          next := m.heap.next + (sizeofHead + (m.heads h).length.toNat)
          live := (m.heap.next, sizeofHead + (m.heads h).length.toNat) :: m.heap.live }
        heads := Function.update m.heads m.heap.next
          { data := m.heap.next + sizeofHead, length := (m.heads h).length, location := 0 } }
      (le_refl _) (by omega) (by have := hv.payload_mapped; omega) hv.payload_mapped
      (by simp only; omega)
      (by
        rcases hv.payload_heap with hp | hp
        · left
          omega
        · right
          omega)
  rw [hres]
  simp only at hh hconv hout
  refine ⟨_, _, rfl, ?_, ?_, ?_, hne, ?_, ?_⟩
  · simp [isOwned, hh]
  · simp [hh]
  · intro i hi
    simp only [payloadByte, hh, Function.update_same]
    exact hconv i hi
  · rw [hh]
    exact hu
  · intro i hi
    simp only [payloadByte, hh, hu]
    apply hout
    rcases hv.payload_heap with hp | hp
    · left
      omega
    · right
      omega

/-- On a valid handle whose length fits an `int`, when the heap has room for the
result, `string_toupper` returns a new owned handle of the same length whose bytes
are the ASCII upper-case images of the bytes of the original, bytes at or above
`0x80` included; the original is left as it was. -/
theorem string_toupper_spec (m : Machine) (h : Nat) (hwf : m.WF)
    (hv : ValidHandle m h) (hsmall : (m.heads h).length ≤ INT_MAX)
    (hroom : m.heap.room (m.heads h).length.toNat) :
    ∃ c m2, string_toupper m h = .ok (c, m2) ∧
      isOwned m2 c = true ∧
      (m2.heads c).length = (m.heads h).length ∧
      (∀ i, i < (m.heads h).length.toNat →
        payloadByte m2 c i = asciiUpper (payloadByte m h i)) ∧
      c ≠ h ∧ m2.heads h = m.heads h ∧
      (∀ i, i < (m.heads h).length.toNat → payloadByte m2 h i = payloadByte m h i) := by
  obtain ⟨c, m2, h1, h2, h3, h4, h5⟩ := caseConv_ok toupper m h hwf hv hsmall hroom
  exact ⟨c, m2, h1, h2, h3, fun i hi => by rw [h4 i hi, toupper_byte], h5⟩

/-- On a valid handle whose length fits an `int`, when the heap has room for the
result, `string_tolower` returns a new owned handle of the same length whose bytes
are the ASCII lower-case images of the bytes of the original, bytes at or above
`0x80` included; the original is left as it was. -/
theorem string_tolower_spec (m : Machine) (h : Nat) (hwf : m.WF)
    (hv : ValidHandle m h) (hsmall : (m.heads h).length ≤ INT_MAX)
    (hroom : m.heap.room (m.heads h).length.toNat) :
    ∃ c m2, string_tolower m h = .ok (c, m2) ∧
      isOwned m2 c = true ∧
      (m2.heads c).length = (m.heads h).length ∧
      (∀ i, i < (m.heads h).length.toNat →
        payloadByte m2 c i = asciiLower (payloadByte m h i)) ∧
      c ≠ h ∧ m2.heads h = m.heads h ∧
      (∀ i, i < (m.heads h).length.toNat → payloadByte m2 h i = payloadByte m h i) := by
  obtain ⟨c, m2, h1, h2, h3, h4, h5⟩ := caseConv_ok tolower m h hwf hv hsmall hroom
  exact ⟨c, m2, h1, h2, h3, fun i hi => by rw [h4 i hi, tolower_byte], h5⟩

/-! ## Fixed-width fields -/

/-- The two bytes combined by `str_uord16`. -/
theorem lor_shift_bytes (a b : Nat) (hb : b < 256) : b ||| (a <<< 8) = 256 * a + b := by
  have h := Nat.mul_add_lt_is_or (i := 8) (b := b) (by simpa using hb) a
  rw [Nat.lor_comm, Nat.shiftLeft_eq, Nat.mul_comm]
  simpa using h.symm

/-- C13. On a handle whose payload is mapped, with at least two bytes `str_uord16`
returns `256 * b0 + b1`, a value in `0 .. 65535`, and with at least one byte
`str_uord8` returns `b0`, a value in `0 .. 255`, where `b0` and `b1` are the first
two payload bytes read as unsigned values; any handle on any machine with the
same leading bytes gives the same results. -/
theorem str_uord_spec (m : Machine) (h : Nat)
    (hmap : (m.heads h).data + (m.heads h).length.toNat ≤ m.memTop) :
    (2 ≤ (m.heads h).length →
      str_uord16 m h
        = .ok (256 * ((payloadByte m h 0).val : Int) + ((payloadByte m h 1).val : Int)) ∧
      (0 : Int) ≤ 256 * ((payloadByte m h 0).val : Int) + ((payloadByte m h 1).val : Int) ∧
      256 * ((payloadByte m h 0).val : Int) + ((payloadByte m h 1).val : Int) ≤ 65535 ∧
      ∀ (m2 : Machine) (h2 : Nat), 2 ≤ (m2.heads h2).length →
        (m2.heads h2).data + (m2.heads h2).length.toNat ≤ m2.memTop →
        payloadByte m2 h2 0 = payloadByte m h 0 → payloadByte m2 h2 1 = payloadByte m h 1 →
        str_uord16 m2 h2 = str_uord16 m h) ∧
    (1 ≤ (m.heads h).length →
      str_uord8 m h = .ok ((payloadByte m h 0).val : Int) ∧
      (0 : Int) ≤ ((payloadByte m h 0).val : Int) ∧ ((payloadByte m h 0).val : Int) ≤ 255 ∧
      ∀ (m2 : Machine) (h2 : Nat), 1 ≤ (m2.heads h2).length →
        (m2.heads h2).data + (m2.heads h2).length.toNat ≤ m2.memTop →
        payloadByte m2 h2 0 = payloadByte m h 0 →
        str_uord8 m2 h2 = str_uord8 m h) := by
  have key16 : ∀ (m2 : Machine) (h2 : Nat), 2 ≤ (m2.heads h2).length →
      (m2.heads h2).data + (m2.heads h2).length.toNat ≤ m2.memTop →
      str_uord16 m2 h2
        = .ok (256 * ((payloadByte m2 h2 0).val : Int) + ((payloadByte m2 h2 1).val : Int)) := by
    intro m2 h2 hl hm
    have hc : (m2.heads h2).data + 2 ≤ m2.memTop := by omega
    have h0 := (m2.bytes (m2.heads h2).data).isLt
    have h1 := (m2.bytes ((m2.heads h2).data + 1)).isLt
    simp only [str_uord16, if_pos hc, payloadByte, Nat.add_zero]
    rw [lor_shift_bytes _ _ h1, wrapLong_of_range _ (by unfold LONG_MIN; omega)
      (by unfold LONG_MAX; omega)]
    push_cast
    rfl
  have key8 : ∀ (m2 : Machine) (h2 : Nat), 1 ≤ (m2.heads h2).length →
      (m2.heads h2).data + (m2.heads h2).length.toNat ≤ m2.memTop →
      str_uord8 m2 h2 = .ok ((payloadByte m2 h2 0).val : Int) := by
    intro m2 h2 hl hm
    have hc : (m2.heads h2).data + 1 ≤ m2.memTop := by omega
    have h0 := (m2.bytes (m2.heads h2).data).isLt
    simp only [str_uord8, if_pos hc, payloadByte, Nat.add_zero]
    rw [wrapLong_of_range _ (by unfold LONG_MIN; omega) (by unfold LONG_MAX; omega)]
  have b0 := (payloadByte m h 0).isLt
  have b1 := (payloadByte m h 1).isLt
  constructor
  · intro hl
    refine ⟨key16 m h hl hmap, by omega, by omega, ?_⟩
    intro m2 h2 hl2 hm2 e0 e1
    rw [key16 m2 h2 hl2 hm2, key16 m h hl hmap, e0, e1]
  · intro hl
    refine ⟨key8 m h hl hmap, by omega, by omega, ?_⟩
    intro m2 h2 hl2 hm2 e0
    rw [key8 m2 h2 hl2 hm2, key8 m h hl hmap, e0]

/-- C13, on "abc": the 16-bit field is `256 * 97 + 98` and the 8-bit field is 97. -/
theorem str_uord_spec_witness :
    str_uord16 exAbc 512 = .ok 24930 ∧ str_uord8 exAbc 512 = .ok 97 :=
  ⟨((str_uord_spec exAbc 512 (by decide)).1 (by decide)).1,
   ((str_uord_spec exAbc 512 (by decide)).2 (by decide)).1⟩

/-! ## Destruction -/

/-- C14. `string_free` leaves the state as it is for the null handle. For any other
handle it returns the location descriptor to the location pool exactly when the
handle has one; when the handle is owned it frees the block that starts at the
handle (the blocks live afterwards are those live before that do not start there)
and leaves the head pool alone; when the handle is borrowed it puts the record on
the head pool's list of released slots and leaves the heap alone. No byte of
memory and no record changes. -/
theorem string_free_spec (m : Machine) (head : Nat) :
    string_free m 0 = m ∧
    (head ≠ 0 →
      (string_free m head).locationPool =
        (if (m.heads head).location ≠ 0 then m.locationPool.release (m.heads head).location
         else m.locationPool) ∧
      (isOwned m head = true →
        (string_free m head).heap = free m.heap head ∧
        (∀ b, b ∈ (string_free m head).heap.live ↔ b ∈ m.heap.live ∧ b.1 ≠ head) ∧
        (string_free m head).headPool = m.headPool) ∧
      (isOwned m head = false →
        (string_free m head).headPool = m.headPool.release head ∧
        (string_free m head).headPool.avail = head :: m.headPool.avail ∧
        (string_free m head).heap = m.heap) ∧
      (string_free m head).bytes = m.bytes ∧
      (string_free m head).heads = m.heads ∧
      (string_free m head).memTop = m.memTop) := by
  constructor
  · simp [string_free]
  · intro hne
    by_cases hloc : (m.heads head).location ≠ 0
    · by_cases hown : head + sizeofHead = (m.heads head).data
      · simp [string_free, hne, hloc, hown, isOwned, free]
      · simp [string_free, hne, hloc, hown, isOwned, Pool.release]
    · by_cases hown : head + sizeofHead = (m.heads head).data
      · simp [string_free, hne, hloc, hown, isOwned, free]
      · simp [string_free, hne, hloc, hown, isOwned, Pool.release]

/-- C14, on the owned string "abd" with a location descriptor at 128: the descriptor
goes back to the location pool and the block at 1024 is no longer live. -/
theorem string_free_spec_witness :
    (1024 : Nat) ≠ 0 ∧ isOwned exFree 1024 = true ∧
    (string_free exFree 1024).locationPool =
      (if (exFree.heads 1024).location ≠ 0 then
        exFree.locationPool.release (exFree.heads 1024).location
       else exFree.locationPool) ∧
    (string_free exFree 1024).heap = free exFree.heap 1024 :=
  ⟨by decide, by decide, ((string_free_spec exFree 1024).2 (by decide)).1,
    (((string_free_spec exFree 1024).2 (by decide)).2.1 (by decide)).1⟩

/-! ## Construction -/

/-- C15. For a source of `n` mapped bytes at `data` that lies below the unused heap or
beyond its end, when the heap has room, `string_alloc_full` returns an owned handle
(its payload starts right after its header) of length `n`, whose payload bytes are
the `n` bytes of the source, at an address other than `data`, and without a
location; the source bytes are as they were. -/
theorem string_alloc_full_spec (m : Machine) (data : Nat) (n : Int) (hwf : m.WF)
    (h0 : 0 ≤ n) (hroom : m.heap.room n.toNat) (hmap : data + n.toNat ≤ m.memTop)
    (hsrc : data + n.toNat ≤ m.heap.next ∨ m.heap.limit < data) :
    ∃ c m1, string_alloc_full m data n = .ok (c, m1) ∧
      isOwned m1 c = true ∧
      (m1.heads c).data = c + sizeofHead ∧
      (m1.heads c).length = n ∧
      (∀ i, i < n.toNat → payloadByte m1 c i = m.bytes (data + i)) ∧
      (m1.heads c).data ≠ data ∧
      (m1.heads c).location = 0 ∧
      (∀ i, i < n.toNat → m1.bytes (data + i) = m.bytes (data + i)) := by
  obtain ⟨m2, hres, hheads, hcopy, hrest, -⟩ := string_alloc_full_ok m data n hwf h0 hroom hmap
  have hpos : 0 < sizeofHead := by decide
  have hroom2 := hroom
  unfold Heap.room at hroom2
  have hc : m2.heads m.heap.next =
      { data := m.heap.next + sizeofHead, length := n, location := 0 } := by
    rw [hheads, Function.update_same]
  refine ⟨m.heap.next, m2, hres, ?_, ?_, ?_, ?_, ?_, ?_, ?_⟩
  · simp [isOwned, hc]
  · rw [hc]
  · rw [hc]
  · intro i hi
    simp only [payloadByte, hc]
    exact hcopy i hi
  · rw [hc]
    simp only
    rcases hsrc with h | h
    · omega
    · omega
  · rw [hc]
  · intro i hi
    apply hrest
    rcases hsrc with h | h
    · left
      omega
    · right
      omega

/-- C15, on the five bytes "HELLO" at address 300. -/
theorem string_alloc_full_spec_witness :
    ∃ c m1, string_alloc_full exHello 300 5 = .ok (c, m1) ∧
      isOwned m1 c = true ∧ (m1.heads c).length = 5 ∧
      payloadByte m1 c 0 = exHello.bytes 300 ∧ (m1.heads c).data ≠ 300 ∧
      (m1.heads c).location = 0 := by
  obtain ⟨c, m1, h1, h2, _, h4, h5, h6, h7, _⟩ :=
    string_alloc_full_spec exHello 300 5 (exMachine_wf _ _) (by decide) (by decide) (by decide)
      (by decide)
  exact ⟨c, m1, h1, h2, h4, h5 0 (by decide), h6, h7⟩

/-- What `string_alloc_pointer` changes when it returns: one record, and the head pool. -/
theorem string_alloc_pointer_inv (m : Machine) (data : Nat) (len : Int) (q : Nat)
    (m2 : Machine) (h : string_alloc_pointer m data len = .ok (q, m2)) :
    m2.heads = Function.update m.heads q { m.heads q with data := data, length := len } ∧
    m2.bytes = m.bytes ∧ m2.heap = m.heap ∧ m2.memTop = m.memTop ∧
    m2.litdata = m.litdata ∧ m2.litlen = m.litlen ∧ m2.locationPool = m.locationPool ∧
    m2.frame = m.frame := by
  unfold string_alloc_pointer at h
  cases hal : m.headPool.allocate with
  | none =>
    rw [hal] at h
    cases h
  | some r =>
    obtain ⟨a, pool⟩ := r
    rw [hal] at h
    simp only [Except.ok.injEq, Prod.mk.injEq] at h
    obtain ⟨rfl, rfl⟩ := h
    exact ⟨rfl, rfl, rfl, rfl, rfl, rfl, rfl, rfl⟩

/-- C16. For an offset whose entry of the literal table lies outside the storage of the
head pool, when the pool can supply a slot, `make_literal` returns a borrowed handle
on an unused slot of the head pool whose payload address is `litdata[offset]` and
whose length is `litlen[offset]`; no byte of memory changes, nothing is taken from
the heap, and the table is as it was. -/
theorem make_literal_spec (m : Machine) (offset : Nat) (hwf : m.WF)
    (hready : m.headPool.ready)
    (hlit : m.litdata offset ≤ m.headPool.base ∨ m.headPool.stop < m.litdata offset) :
    ∃ c m1, make_literal m offset = .ok (c, m1) ∧
      isOwned m1 c = false ∧ m.headPool.unused c ∧
      (m1.heads c).data = m.litdata offset ∧
      (m1.heads c).length = m.litlen offset ∧
      m1.bytes = m.bytes ∧ m1.heap = m.heap ∧
      m1.litdata = m.litdata ∧ m1.litlen = m.litlen := by
  obtain ⟨q, m2, hres, hun, hlo, hhi, hheads, hbytes, hheap, -⟩ :=
    string_alloc_pointer_ok m (m.litdata offset) (m.litlen offset) hwf hready
  obtain ⟨-, -, -, -, hld, hll, -⟩ := string_alloc_pointer_inv m _ _ q m2 hres
  have hpos : 0 < sizeofHead := by decide
  have hneq : ¬ q + sizeofHead = m.litdata offset := by
    rcases hlit with h | h
    · omega
    · omega
  refine ⟨q, m2, hres, ?_, hun, ?_, ?_, hbytes, hheap, hld, hll⟩
  · simp [isOwned, hheads, hneq]
  · rw [hheads, Function.update_same]
  · rw [hheads, Function.update_same]

/-- C16, on the literal table of `exHello`, whose entries are at address 256. -/
theorem make_literal_spec_witness :
    ∃ c m1, make_literal exHello 0 = .ok (c, m1) ∧
      isOwned m1 c = false ∧ exHello.headPool.unused c ∧
      (m1.heads c).data = exHello.litdata 0 ∧
      (m1.heads c).length = exHello.litlen 0 ∧
      m1.bytes = exHello.bytes ∧ m1.heap = exHello.heap ∧
      m1.litdata = exHello.litdata ∧ m1.litlen = exHello.litlen :=
  make_literal_spec exHello 0 (exMachine_wf _ _) (by decide) (by decide)

/-! ## End to end -/

/-- The run of the end-to-end example on `exHello`, evaluated. -/
theorem helloRun_exHello :
    helloRun exHello 256 300 5 =
      .ok { borrowedIn := true, ownedOut := true, lengthOut := 5,
            bytesOut := [72, 69, 76, 76, 79], compared := 0 } := by
  decide!

/-- A run of the end-to-end example that returns went through its four calls. -/
theorem helloRun_inv (m : Machine) (src ref n : Nat) (r : HelloResult)
    (hrun : helloRun m src ref n = .ok r) :
    ∃ h m1 u m2 g m3 c,
      string_alloc_pointer m src n = .ok (h, m1) ∧
      string_toupper m1 h = .ok (u, m2) ∧
      string_alloc_full m2 ref n = .ok (g, m3) ∧
      cmp_string m3 u g = .ok c ∧
      r = { borrowedIn := !(isOwned m1 h), ownedOut := isOwned m2 u,
            lengthOut := (m2.heads u).length,
            bytesOut := (List.range n).map (fun i => (payloadByte m2 u i).val),
            compared := c } := by
  unfold helloRun at hrun
  cases h1 : string_alloc_pointer m src n with
  | error e =>
    rw [h1] at hrun
    cases hrun
  | ok p1 =>
    obtain ⟨h, m1⟩ := p1
    rw [h1] at hrun
    simp only at hrun
    cases h2 : string_toupper m1 h with
    | error e =>
      rw [h2] at hrun
      cases hrun
    | ok p2 =>
      obtain ⟨u, m2⟩ := p2
      rw [h2] at hrun
      simp only at hrun
      cases h3 : string_alloc_full m2 ref n with
      | error e =>
        rw [h3] at hrun
        cases hrun
      | ok p3 =>
        obtain ⟨g, m3⟩ := p3
        rw [h3] at hrun
        simp only at hrun
        cases h4 : cmp_string m3 u g with
        | error e =>
          rw [h4] at hrun
          cases hrun
        | ok c =>
          rw [h4] at hrun
          simp only [Except.ok.injEq] at hrun
          exact ⟨h, m1, u, m2, g, m3, c, rfl, h2, h3, h4, hrun.symm⟩

/-- C17. On the machine `exHello`: `string_alloc_pointer` on the five bytes "hello" gives
a borrowed handle; `string_toupper` of it gives an owned handle of length 5 with the
payload bytes `H, E, L, L, O`; and `cmp_string` of that handle with the result of
`string_alloc_full` on the five bytes "HELLO" is 0. -/
theorem hello_end_to_end :
    ∃ h m1 u m2 g m3,
      string_alloc_pointer exHello 256 5 = .ok (h, m1) ∧ isOwned m1 h = false ∧
      string_toupper m1 h = .ok (u, m2) ∧ isOwned m2 u = true ∧
      (m2.heads u).length = 5 ∧
      (List.range 5).map (fun i => (payloadByte m2 u i).val) = [72, 69, 76, 76, 79] ∧
      string_alloc_full m2 300 5 = .ok (g, m3) ∧
      cmp_string m3 u g = .ok 0 := by
  obtain ⟨h, m1, u, m2, g, m3, c, h1, h2, h3, h4, hr⟩ :=
    helloRun_inv exHello 256 300 5 _ helloRun_exHello
  simp only [HelloResult.mk.injEq] at hr
  obtain ⟨e1, e2, e3, e4, e5⟩ := hr
  refine ⟨h, m1, u, m2, g, m3, h1, ?_, h2, e2.symm, e3.symm, e4.symm, h3, ?_⟩
  · cases hb : isOwned m1 h with
    | false => rfl
    | true =>
      rw [hb] at e1
      cases e1
  · rw [h4, ← e5]

/-! ## Comparison as an order -/

/-- C18 fails on the code: on two identical strings `cmp_string` returns 0, not 1, and on
two different strings it returns a value other than 0 ("Z" against "aa" gives -1,
"abd" against "abc" gives 1). -/
theorem cmp_string_not_boolean :
    cmp_string exZaa 512 512 = .ok 0 ∧
    cmp_string exZaa 512 536 = .ok (-1) ∧
    cmp_string exAbc 1024 512 = .ok 1 := by
  decide!

/-- Swapping the arguments of the scan of `memcmp` negates its result. -/
theorem memcmpScan_swap (m : Machine) : ∀ (n p q : Nat) (r : Int),
    memcmpScan m n p q = .ok r → memcmpScan m n q p = .ok (-r) := by
  intro n
  induction n with
  | zero =>
    intro p q r h
    simp only [memcmpScan, Except.ok.injEq] at h
    subst h
    rfl
  | succ n ih =>
    intro p q r h
    by_cases hc : m.memTop ≤ p ∨ m.memTop ≤ q
    · simp only [memcmpScan, if_pos hc] at h
      cases h
    · have hc2 : ¬ (m.memTop ≤ q ∨ m.memTop ≤ p) := fun h => hc (Or.symm h)
      by_cases hb : m.bytes p = m.bytes q
      · simp only [memcmpScan, if_neg hc, if_pos hb] at h
        simp only [memcmpScan, if_neg hc2, if_pos hb.symm]
        exact ih _ _ _ h
      · have hb2 : ¬ m.bytes q = m.bytes p := fun h => hb h.symm
        simp only [memcmpScan, if_neg hc, if_neg hb, Except.ok.injEq] at h
        simp only [memcmpScan, if_neg hc2, if_neg hb2, Except.ok.injEq]
        omega

/-- C19. On two handles with mapped payloads, the first of non-negative length, `cmp_string`
returns in both orders, the two results have opposite signs (so they are zero
together), and a handle compared with itself gives 0. -/
theorem cmp_string_antisymm (m : Machine) (a b : Nat)
    (hsp : m.memTop ≤ 9223372036854775808)
    (ha0 : 0 ≤ (m.heads a).length)
    (ha : (m.heads a).data + (m.heads a).length.toNat ≤ m.memTop)
    (hb : (m.heads b).data + (m.heads b).length.toNat ≤ m.memTop) :
    (∃ r1 r2, cmp_string m a b = .ok r1 ∧ cmp_string m b a = .ok r2 ∧
      Int.sign r2 = - Int.sign r1 ∧ (r1 = 0 ↔ r2 = 0)) ∧
    cmp_string m a a = .ok 0 := by
  constructor
  · rcases lt_trichotomy (m.heads a).length (m.heads b).length with hlt | heq | hgt
    · have h2 : ¬ (m.heads b).length < (m.heads a).length := by omega
      refine ⟨-1, 1, by simp [cmp_string, hlt], by simp [cmp_string, h2, hlt], by decide,
        by decide⟩
    · have hsz : toSizeT (m.heads a).length = (m.heads a).length.toNat :=
        toSizeT_of_nonneg _ ha0 (by omega)
      obtain ⟨r, hr, -⟩ := memcmpScan_spec m (m.heads a).length.toNat
        (m.heads a).data (m.heads b).data ha (by rw [heq]; exact hb)
      have hr2 := memcmpScan_swap m _ _ _ r hr
      have h1 : ¬ (m.heads a).length < (m.heads b).length := by omega
      have h2 : ¬ (m.heads a).length > (m.heads b).length := by omega
      have h3 : ¬ (m.heads b).length < (m.heads a).length := by omega
      have h4 : ¬ (m.heads b).length > (m.heads a).length := by omega
      refine ⟨r, -r, ?_, ?_, Int.sign_neg r, by omega⟩
      · simp only [cmp_string, if_neg h1, if_neg h2, memcmp, hsz]
        exact hr
      · simp only [cmp_string, if_neg h3, if_neg h4, memcmp]
        rw [← heq, hsz]
        exact hr2
    · have h2 : ¬ (m.heads a).length < (m.heads b).length := by omega
      refine ⟨1, -1, by simp [cmp_string, h2, hgt], by simp [cmp_string, hgt], by decide,
        by decide⟩
  · have hsz : toSizeT (m.heads a).length = (m.heads a).length.toNat :=
      toSizeT_of_nonneg _ ha0 (by omega)
    obtain ⟨r, hr, hz, -⟩ := memcmpScan_spec m (m.heads a).length.toNat
      (m.heads a).data (m.heads a).data ha ha
    have h0 : r = 0 := hz.mpr (fun _ _ => rfl)
    subst h0
    simp only [cmp_string, lt_irrefl, gt_iff_lt, if_false, memcmp, hsz]
    exact hr

/-- C19, on "abc" and "abd": -1 one way, 1 the other. -/
theorem cmp_string_antisymm_witness :
    (∃ r1 r2, cmp_string exAbc 512 1024 = .ok r1 ∧ cmp_string exAbc 1024 512 = .ok r2 ∧
      Int.sign r2 = - Int.sign r1 ∧ (r1 = 0 ↔ r2 = 0)) ∧
    cmp_string exAbc 512 512 = .ok 0 :=
  cmp_string_antisymm exAbc 512 1024 (by decide) (by decide) (by decide) (by decide)

/-- The scan of `memcmp` is transitive on results that are at most zero. -/
theorem memcmpScan_trans (m : Machine) : ∀ (n p q s : Nat) (r1 r2 : Int),
    memcmpScan m n p q = .ok r1 → memcmpScan m n q s = .ok r2 → r1 ≤ 0 → r2 ≤ 0 →
    ∃ r3, memcmpScan m n p s = .ok r3 ∧ r3 ≤ 0 := by
  intro n
  induction n with
  | zero =>
    intro p q s r1 r2 _ _ _ _
    exact ⟨0, rfl, le_refl _⟩
  | succ n ih =>
    intro p q s r1 r2 h1 h2 hr1 hr2
    by_cases hc1 : m.memTop ≤ p ∨ m.memTop ≤ q
    · simp only [memcmpScan, if_pos hc1] at h1
      cases h1
    · by_cases hc2 : m.memTop ≤ q ∨ m.memTop ≤ s
      · simp only [memcmpScan, if_pos hc2] at h2
        cases h2
      · have hc3 : ¬ (m.memTop ≤ p ∨ m.memTop ≤ s) := by omega
        simp only [memcmpScan, if_neg hc1] at h1
        simp only [memcmpScan, if_neg hc2] at h2
        simp only [memcmpScan, if_neg hc3]
        by_cases hpq : m.bytes p = m.bytes q
        · rw [if_pos hpq] at h1
          by_cases hqs : m.bytes q = m.bytes s
          · rw [if_pos hqs] at h2
            rw [if_pos (hpq.trans hqs)]
            exact ih _ _ _ _ _ h1 h2 hr1 hr2
          · rw [if_neg hqs] at h2
            simp only [Except.ok.injEq] at h2
            have hps : ¬ m.bytes p = m.bytes s := fun e => hqs (hpq.symm.trans e)
            rw [if_neg hps, hpq]
            exact ⟨_, rfl, by omega⟩
        · rw [if_neg hpq] at h1
          simp only [Except.ok.injEq] at h1
          have hv : (m.bytes p).val ≠ (m.bytes q).val := fun e => hpq (Fin.ext e)
          by_cases hqs : m.bytes q = m.bytes s
          · have hps : ¬ m.bytes p = m.bytes s := fun e => hpq (e.trans hqs.symm)
            rw [if_neg hps, ← hqs]
            exact ⟨_, rfl, by omega⟩
          · rw [if_neg hqs] at h2
            simp only [Except.ok.injEq] at h2
            have hv2 : (m.bytes q).val ≠ (m.bytes s).val := fun e => hqs (Fin.ext e)
            have hps : ¬ m.bytes p = m.bytes s := by
              intro e
              have : (m.bytes p).val = (m.bytes s).val := by rw [e]
              omega
            rw [if_neg hps]
            exact ⟨_, rfl, by omega⟩

/-- C20. Whenever `cmp_string` returns a result at most zero on `a`, `b` and on `b`, `c`,
it returns a result at most zero on `a`, `c`, results read as signed values. -/
theorem cmp_string_trans (m : Machine) (a b c : Nat) (r1 r2 : Int)
    (h1 : cmp_string m a b = .ok r1) (h2 : cmp_string m b c = .ok r2)
    (hr1 : r1 ≤ 0) (hr2 : r2 ≤ 0) :
    ∃ r3, cmp_string m a c = .ok r3 ∧ r3 ≤ 0 := by
  unfold cmp_string at h1 h2
  by_cases hab : (m.heads a).length < (m.heads b).length
  · by_cases hbc : (m.heads b).length < (m.heads c).length
    · exact ⟨-1, by simp [cmp_string, lt_trans hab hbc], by decide⟩
    · rw [if_neg hbc] at h2
      by_cases hbc2 : (m.heads b).length > (m.heads c).length
      · rw [if_pos hbc2] at h2
        simp only [Except.ok.injEq] at h2
        omega
      · have : (m.heads a).length < (m.heads c).length := by omega
        exact ⟨-1, by simp [cmp_string, this], by decide⟩
  · rw [if_neg hab] at h1
    by_cases hab2 : (m.heads a).length > (m.heads b).length
    · rw [if_pos hab2] at h1
      simp only [Except.ok.injEq] at h1
      omega
    · rw [if_neg hab2] at h1
      have heq : (m.heads a).length = (m.heads b).length := by omega
      by_cases hbc : (m.heads b).length < (m.heads c).length
      · have : (m.heads a).length < (m.heads c).length := by omega
        exact ⟨-1, by simp [cmp_string, this], by decide⟩
      · rw [if_neg hbc] at h2
        by_cases hbc2 : (m.heads b).length > (m.heads c).length
        · rw [if_pos hbc2] at h2
          simp only [Except.ok.injEq] at h2
          omega
        · rw [if_neg hbc2] at h2
          have hac1 : ¬ (m.heads a).length < (m.heads c).length := by omega
          have hac2 : ¬ (m.heads a).length > (m.heads c).length := by omega
          simp only [memcmp] at h1 h2
          rw [← heq] at h2
          obtain ⟨r3, h3, hle⟩ := memcmpScan_trans m _ _ _ _ r1 r2 h1 h2 hr1 hr2
          exact ⟨r3, by simp only [cmp_string, if_neg hac1, if_neg hac2, memcmp]; exact h3, hle⟩

/-- C20, on "abc", "abd" and "abe". -/
theorem cmp_string_trans_witness : ∃ r3, cmp_string exOrder 512 1024 = .ok r3 ∧ r3 ≤ 0 :=
  cmp_string_trans exOrder 512 536 1024 (-1) (-1) (by decide!) (by decide!) (by decide)
    (by decide)

/-! ## The length invariant -/

/-- What `init_str_space` changes when it returns. -/
theorem init_str_space_inv (m : Machine) (len : Int) (p : Nat) (m1 : Machine)
    (h : init_str_space m len = .ok (p, m1)) :
    m1.heads = Function.update m.heads p
        { data := p + sizeofHead, length := len, location := 0 } ∧
    m1.memTop = m.memTop ∧ m1.bytes = m.bytes ∧ p ≠ 0 := by
  unfold init_str_space at h
  simp only at h
  split at h
  · cases h
  · rename_i hne
    simp only [Except.ok.injEq, Prod.mk.injEq] at h
    obtain ⟨rfl, rfl⟩ := h
    exact ⟨rfl, rfl, rfl, hne⟩

/-- What `memcpy` needs and keeps when it returns. -/
theorem memcpy_inv (m : Machine) (dst src n : Nat) (m1 : Machine)
    (h : memcpy m dst src n = .ok m1) :
    m1.heads = m.heads ∧ m1.memTop = m.memTop ∧ dst + n ≤ m.memTop ∧ src + n ≤ m.memTop := by
  unfold memcpy at h
  split at h
  · rename_i hc
    simp only [Except.ok.injEq] at h
    subst h
    exact ⟨rfl, rfl, hc.1, hc.2⟩
  · cases h

/-- The conversion loop does not touch the records. -/
theorem caseLoop_heads (f : Int → Int) (len : Int) :
    ∀ (fuel : Nat) (i : Int) (src dst : Nat) (m m1 : Machine),
      caseLoop f len fuel i src dst m = .ok m1 → m1.heads = m.heads := by
  intro fuel
  induction fuel with
  | zero =>
    intro i src dst m m1 h
    simp only [caseLoop] at h
    cases h
  | succ k ih =>
    intro i src dst m m1 h
    simp only [caseLoop] at h
    split at h
    · split at h
      · cases h
      · have := ih _ _ _ _ _ h
        exact this
    · simp only [Except.ok.injEq] at h
      subst h
      rfl

/-- Storing a record with a non-negative length keeps the invariant. -/
theorem lengthsOk_update (heads : Nat → Head) (p : Nat) (r : Head)
    (hinv : ∀ h, 0 ≤ (heads h).length) (hr : 0 ≤ r.length) :
    ∀ h, 0 ≤ (Function.update heads p r h).length := by
  intro h
  by_cases e : h = p
  · subst e
    rw [Function.update_same]
    exact hr
  · rw [Function.update_noteq e]
    exact hinv h

/-- C11, as amended. On a machine inside the lower half of the address space on which
every record has a non-negative length, every record still has one after a call
that returns of `string_alloc_full`, `string_copy`, `concat_str`, `string_toupper`,
`string_tolower`, `int_to_str`, of `string_alloc_pointer` with a non-negative length,
or of `string_shorten` with a new length that is not negative. -/
theorem lengths_invariant (m : Machine) (hsp : m.memTop ≤ 9223372036854775808)
    (hinv : LengthsOk m) :
    (∀ data len c m1, LONG_MIN ≤ len → string_alloc_full m data len = .ok (c, m1) →
      LengthsOk m1) ∧
    (∀ data len c m1, 0 ≤ len → string_alloc_pointer m data len = .ok (c, m1) →
      LengthsOk m1) ∧
    (∀ h c m1, string_copy m h = .ok (c, m1) → LengthsOk m1) ∧
    (∀ a b c m1, concat_str m a b = .ok (c, m1) → LengthsOk m1) ∧
    (∀ s c m1, string_toupper m s = .ok (c, m1) → LengthsOk m1) ∧
    (∀ s c m1, string_tolower m s = .ok (c, m1) → LengthsOk m1) ∧
    (∀ v c m1, int_to_str m v = .ok (c, m1) → LengthsOk m1) ∧
    (∀ h n m1, 0 ≤ n → string_shorten m h n = .ok m1 → LengthsOk m1) := by
  have hfull : ∀ (m0 : Machine), m0.memTop ≤ 9223372036854775808 → LengthsOk m0 →
      ∀ data len c m1, LONG_MIN ≤ len → string_alloc_full m0 data len = .ok (c, m1) →
        LengthsOk m1 := by
    intro m0 hsp0 hinv0 data len c m1 hlo h
    unfold string_alloc_full at h
    cases h1 : init_str_space m0 len with
    | error e =>
      rw [h1] at h
      cases h
    | ok r =>
      obtain ⟨p, ma⟩ := r
      rw [h1] at h
      simp only at h
      obtain ⟨hh, htop, -, hp⟩ := init_str_space_inv m0 len p ma h1
      cases h2 : memcpy ma (p + sizeofHead) data (toSizeT len) with
      | error e =>
        rw [h2] at h
        cases h
      | ok mb =>
        rw [h2] at h
        simp only [Except.ok.injEq, Prod.mk.injEq] at h
        obtain ⟨rfl, rfl⟩ := h
        obtain ⟨hh2, -, hd, -⟩ := memcpy_inv ma _ _ _ mb h2
        have hlen : 0 ≤ len := by
          unfold toSizeT at hd
          unfold LONG_MIN at hlo
          omega
        unfold LengthsOk
        rw [hh2, hh]
        exact lengthsOk_update _ _ _ hinv0 hlen
  have hptr : ∀ data len c m1, 0 ≤ len → string_alloc_pointer m data len = .ok (c, m1) →
      LengthsOk m1 := by
    intro data len c m1 hlen h
    obtain ⟨hh, -⟩ := string_alloc_pointer_inv m data len c m1 h
    unfold LengthsOk
    rw [hh]
    exact lengthsOk_update _ _ _ hinv hlen
  have hcase : ∀ (f : Int → Int) (s c : Nat) (m1 : Machine),
      (match init_str_space m (m.heads s).length with
        | .error e => .error e
        | .ok (head, ma) =>
          match caseLoop f (m.heads s).length (ma.memTop + 1) 0 (ma.heads s).data
              (head + sizeofHead) ma with
          | .error e => .error e
          | .ok mb => .ok (head, mb)) = (.ok (c, m1) : Except Fault (Nat × Machine)) →
      LengthsOk m1 := by
    intro f s c m1 h
    cases h1 : init_str_space m (m.heads s).length with
    | error e =>
      rw [h1] at h
      cases h
    | ok r =>
      obtain ⟨p, ma⟩ := r
      rw [h1] at h
      simp only at h
      obtain ⟨hh, -⟩ := init_str_space_inv m _ p ma h1
      cases h2 : caseLoop f (m.heads s).length (ma.memTop + 1) 0 (ma.heads s).data
          (p + sizeofHead) ma with
      | error e =>
        rw [h2] at h
        cases h
      | ok mb =>
        rw [h2] at h
        simp only [Except.ok.injEq, Prod.mk.injEq] at h
        obtain ⟨rfl, rfl⟩ := h
        unfold LengthsOk
        rw [caseLoop_heads f _ _ _ _ _ _ _ h2, hh]
        exact lengthsOk_update _ _ _ hinv (hinv s)
  refine ⟨hfull m hsp hinv, hptr, ?_, ?_, fun s c m1 h => hcase toupper s c m1 h,
    fun s c m1 h => hcase tolower s c m1 h, ?_, ?_⟩
  · intro h c m1 hc
    unfold string_copy at hc
    split at hc
    · split at hc
      · exact hfull m hsp hinv _ _ c m1 (by have := hinv h; unfold LONG_MIN; omega) hc
      · exact hptr _ _ c m1 (hinv h) hc
    · simp only [Except.ok.injEq, Prod.mk.injEq] at hc
      obtain ⟨-, rfl⟩ := hc
      exact hinv
  · intro a b c m1 h
    unfold concat_str at h
    simp only at h
    cases h1 : init_str_space m (wrapLong ((m.heads a).length + (m.heads b).length)) with
    | error e =>
      rw [h1] at h
      cases h
    | ok r =>
      obtain ⟨p, ma⟩ := r
      rw [h1] at h
      simp only at h
      obtain ⟨hh, htop, -, hp⟩ := init_str_space_inv m _ p ma h1
      cases h2 : memcpy ma (p + sizeofHead) (ma.heads a).data (toSizeT (m.heads a).length) with
      | error e =>
        rw [h2] at h
        cases h
      | ok mb =>
        rw [h2] at h
        simp only at h
        obtain ⟨hh2, htop2, hd2, -⟩ := memcpy_inv ma _ _ _ mb h2
        cases h3 : memcpy mb (p + sizeofHead + toSizeT (m.heads a).length) (mb.heads b).data
            (toSizeT (m.heads b).length) with
        | error e =>
          rw [h3] at h
          cases h
        | ok mc =>
          rw [h3] at h
          simp only [Except.ok.injEq, Prod.mk.injEq] at h
          obtain ⟨rfl, rfl⟩ := h
          obtain ⟨hh3, -, hd3, -⟩ := memcpy_inv mb _ _ _ mc h3
          have ha0 := hinv a
          have hb0 := hinv b
          have hlen : 0 ≤ wrapLong ((m.heads a).length + (m.heads b).length) := by
            rw [htop2, htop] at hd3
            unfold toSizeT at hd3
            unfold wrapLong
            omega
          unfold LengthsOk
          rw [hh3, hh2, hh]
          exact lengthsOk_update _ _ _ hinv hlen
  · intro v c m1 h
    unfold int_to_str at h
    cases h1 : sprintf_ld m m.frame 20 v with
    | error e =>
      rw [h1] at h
      cases h
    | ok ma =>
      rw [h1] at h
      simp only at h
      have hma : ma.heads = m.heads ∧ ma.memTop = m.memTop := by
        unfold sprintf_ld at h1
        split at h1
        · cases h1
        · split at h1
          · simp only [Except.ok.injEq] at h1
            subst h1
            exact ⟨rfl, rfl⟩
          · cases h1
      cases h2 : strlen ma ma.frame with
      | error e =>
        rw [h2] at h
        cases h
      | ok n =>
        rw [h2] at h
        simp only at h
        refine hfull ma (by rw [hma.2]; exact hsp) ?_ _ _ c m1
          (by unfold LONG_MIN; omega) h
        intro x
        rw [hma.1]
        exact hinv x
  · intro h n m1 hn hs
    unfold string_shorten at hs
    split at hs
    · simp only [Except.ok.injEq] at hs
      subst hs
      exact lengthsOk_update _ _ _ hinv hn
    · cases hs

/-- The example machines keep the length invariant when the listed records do. -/
theorem exMachine_lengths (texts : List (Nat × List Byte)) (hs : List (Nat × Head))
    (h : ∀ e, e ∈ hs → 0 ≤ e.2.length) : LengthsOk (exMachine texts hs) := by
  intro a
  show 0 ≤ ((hs.lookup a).getD { data := 0, length := 0, location := 0 }).length
  induction hs with
  | nil => simp
  | cons e rest ih =>
    obtain ⟨k, v⟩ := e
    rw [List.lookup_cons]
    cases hk : (a == k) with
    | true =>
      simp only [Option.getD_some]
      exact h (k, v) (by simp)
    | false =>
      simp only
      exact ih (fun e he => h e (by simp [he]))

/-- C11, on shortening the owned string "abd" to two bytes. -/
theorem lengths_invariant_witness :
    ∃ m1, string_shorten exAbc 1024 2 = .ok m1 ∧ LengthsOk m1 := by
  have h := (lengths_invariant exAbc (by decide)
    (exMachine_lengths _ _ (by decide))).2.2.2.2.2.2.2 1024 2
  exact ⟨_, rfl, h _ (by decide) rfl⟩

/-- C11 fails as stated: on a machine that keeps the invariant, `string_shorten` with the
new length -1, which is within the asserted `newlen <= length`, returns and leaves
the handle with the length -1; and `string_alloc_pointer` called with the length -1
returns a handle of length -1. -/
theorem lengths_counterexample :
    LengthsOk exAbc ∧ (-1 : Int) ≤ (exAbc.heads 1024).length ∧
    (∃ m1, string_shorten exAbc 1024 (-1) = .ok m1 ∧ (m1.heads 1024).length = -1 ∧
      ¬ LengthsOk m1) ∧
    (∃ c m1, string_alloc_pointer exAbc 256 (-1) = .ok (c, m1) ∧ (m1.heads c).length = -1 ∧
      ¬ LengthsOk m1) := by
  refine ⟨exMachine_lengths _ _ (by decide), by decide, ⟨_, rfl, rfl, ?_⟩, ⟨_, _, rfl, rfl, ?_⟩⟩
  · intro h
    exact absurd (h 1024) (by decide)
  · intro h
    exact absurd (h 560) (by decide)

/-! ## Integer to text -/

/-- C12 fails on the code: the text of the most negative `long` has 20 characters, so
`sprintf` writes 21 bytes to the 20-byte buffer `data` and `int_to_str` does not
return a handle; the same happens from `-10^18` downwards. -/
theorem int_to_str_long_min :
    (formatLong LONG_MIN).length = 20 ∧
    int_to_str (exMachine [] []) LONG_MIN = .error .stackSmash ∧
    int_to_str (exMachine [] []) (-1000000000000000000) = .error .stackSmash :=
  ⟨by decide, rfl, rfl⟩

/-- The digits of a positive number do not start with a zero. -/
theorem digitsAux_head : ∀ (fuel n : Nat) (acc : List Byte), 0 < n → n < 10 ^ fuel →
    (digitsAux fuel n acc).head? ≠ some 48 := by
  intro fuel
  induction fuel with
  | zero =>
    intro n acc h0 hn
    simp at hn
    omega
  | succ f ih =>
    intro n acc h0 hn
    by_cases h : n < 10
    · have hb := byteOfInt_digit n h
      simp only [digitsAux, if_pos h, List.head?_cons, ne_eq, Option.some.injEq]
      intro e
      rw [e] at hb
      have h48 : ((48 : Byte)).val = 48 := rfl
      omega
    · simp only [digitsAux, if_neg h]
      apply ih
      · omega
      · rw [pow_succ] at hn
        omega

/-- The text that `sprintf` produces for `"%ld"` is the canonical decimal text. -/
theorem formatLong_canonical (v : Int) (hv : v.natAbs < 10 ^ 20) :
    IsCanonicalDecimal v (formatLong v) := by
  obtain ⟨hval, hdig⟩ := digitsAux_value 20 v.natAbs hv
  obtain ⟨-, hlen⟩ := digitsAux_length 20 v.natAbs 20 [] (by decide) (by decide) hv
  refine ⟨digitsAux 20 v.natAbs [], ?_, ?_, hdig, hval, ?_⟩
  · unfold formatLong
    split <;> rfl
  · intro e
    rw [e] at hlen
    simp at hlen
  · intro hh
    by_cases h0 : v.natAbs = 0
    · rw [h0]
      rfl
    · exact absurd hh (digitsAux_head 20 v.natAbs [] (by omega) hv)

/-- For every value above `-10^18` in the range of `long`, on a well-formed machine whose
heap has room and whose local buffer is mapped, `int_to_str`
returns a new owned handle without location whose payload is the canonical decimal
text of the value and whose length is the number of characters of that text. -/
theorem int_to_str_spec (m : Machine) (v : Int) (hwf : m.WF)
    (hlo : -1000000000000000000 < v) (hhi : v ≤ LONG_MAX)
    (hfm : m.frame + 20 ≤ m.memTop)
    (hroom : m.heap.room (formatLong v).length) :
    ∃ c m1, int_to_str m v = .ok (c, m1) ∧
      isOwned m1 c = true ∧
      (m1.heads c).length = ((formatLong v).length : Int) ∧
      (∀ i, i < (formatLong v).length → payloadByte m1 c i = (formatLong v).getD i 0) ∧
      (m1.heads c).location = 0 ∧
      IsCanonicalDecimal v (formatLong v) := by
  unfold LONG_MAX at hhi
  have h20 : v.natAbs < 10 ^ 20 := by
    norm_num
    omega
  have hL : (formatLong v).length ≤ 19 := by
    unfold formatLong
    by_cases hneg : v < 0
    · have h18 : v.natAbs < 10 ^ 18 := by
        norm_num
        omega
      obtain ⟨hle, -⟩ := digitsAux_length 20 v.natAbs 18 [] (by decide) (by decide) h18
      rw [if_pos hneg, List.length_cons]
      simp only [List.length_nil] at hle
      omega
    · have h19 : v.natAbs < 10 ^ 19 := by
        norm_num
        omega
      obtain ⟨hle, -⟩ := digitsAux_length 20 v.natAbs 19 [] (by decide) (by decide) h19
      rw [if_neg hneg]
      simp only [List.length_nil] at hle
      omega
  obtain ⟨m1, hspr, hb1, hz1, hout1, hheap1, htop1, hheads1, hframe1, hpool1, -⟩ :=
    sprintf_ld_ok m v (by omega) hfm
  have hwf1 : m1.WF :=
    ⟨by rw [hheap1]; exact hwf.heap_pos, by rw [hheap1, htop1]; exact hwf.heap_mapped,
     by rw [htop1]; exact hwf.addr_space, by rw [hpool1]; exact hwf.pool_slot,
     by rw [hpool1]; exact hwf.pool_used, by rw [hpool1]; exact hwf.pool_fits,
     by rw [hpool1]; exact hwf.pool_avail⟩
  have hlen : strlen m1 m1.frame = .ok (formatLong v).length := by
    unfold strlen
    rw [hframe1, htop1]
    have := strlenScan_run m1 (formatLong v).length m.frame 0 (m.memTop + 1 - m.frame)
      (by
        intro i hi
        rw [hb1 i hi]
        have hmem : (formatLong v).getD i 0 ∈ formatLong v := by
          rw [List.getD_eq_getElem _ 0 hi]
          exact List.getElem_mem hi
        rcases formatLong_bytes v h20 _ hmem with h | h
        · omega
        · have : 48 ≤ ((formatLong v).getD i 0).val ∧ ((formatLong v).getD i 0).val ≤ 57 := by
            simpa [isdigit] using h
          omega)
      (by rw [hz1]; rfl) (by rw [htop1]; omega) (by omega)
    simpa using this
  obtain ⟨m2, halloc, hheads2, hcopy2, -⟩ :=
    string_alloc_full_ok m1 m1.frame ((formatLong v).length : Int) hwf1 (by omega)
      (by
        unfold Heap.room
        rw [hheap1, Int.toNat_natCast]
        exact hroom)
      (by rw [hframe1, htop1, Int.toNat_natCast]; omega)
  simp only [hheap1, hframe1, Int.toNat_natCast] at hcopy2
  rw [hheap1] at halloc hheads2
  have hc : m2.heads m.heap.next =
      { data := m.heap.next + sizeofHead, length := ((formatLong v).length : Int),
        location := 0 } := by
    rw [hheads2, Function.update_same]
  refine ⟨m.heap.next, m2, ?_, ?_, ?_, ?_, ?_, formatLong_canonical v h20⟩
  · unfold int_to_str
    rw [hspr]
    simp only
    rw [hlen]
    simp only
    exact halloc
  · simp [isOwned, hc]
  · rw [hc]
  · intro i hi
    simp only [payloadByte, hc]
    rw [hcopy2 i hi, hb1 i hi]
  · rw [hc]

end Colm
